import Mathlib

/-!
# Verification of the task-sync subsystem

Shallow embedding of the repository's task synchronisation code
(`src/utils/todo_sync.py`, `src/utils/task_sanitize.py`,
`src/utils/todo_validation.py`) as executable Lean definitions, together
with theorems settling the specification claims about it.

Strings are modelled as `List Char`.  Python's Unicode whitespace class
(used by `re` with `\s`, by `str.split()` and by `str.strip()`) is
modelled by `isPySpace`; the `\d` character class is modelled as ASCII
digits (no claim involves non-ASCII digits).
-/

/-- Coerce a Lean string literal to the `List Char` representation used
throughout this development. -/
def s2l (s : String) : List Char := s.data

/-- Python whitespace, as matched by `\s`, `str.split()` and `str.strip()`:
ASCII whitespace plus the Unicode space characters. -/
def isPySpace (c : Char) : Bool :=
  let n := c.toNat
  (9 ≤ n && n ≤ 13) || n == 32 || (28 ≤ n && n ≤ 31) || n == 133 || n == 160 ||
    n == 5760 || (8192 ≤ n && n ≤ 8202) || n == 8232 || n == 8233 ||
    n == 8239 || n == 8287 || n == 12288

/-- The fixed shell-metacharacter set of `sanitize_goal`
(`;`, `|`, `&`, `$`, backtick, `<`, `>`), by code point. -/
def isDangerous (c : Char) : Bool :=
  c.toNat == 59 || c.toNat == 124 || c.toNat == 38 || c.toNat == 36 ||
    c.toNat == 96 || c.toNat == 60 || c.toNat == 62

/-- Numeric value of a digit string, as computed by Python `int()` on the
digits captured by `(\d+)`. -/
def digitsVal (ds : List Char) : Nat :=
  ds.foldl (fun a c => a * 10 + (c.toNat - 48)) 0

/-- `re.sub(r'- \[[x ]\]', '', goal)`: delete every (leftmost,
non-overlapping) checkbox occurrence. -/
def removeCheckbox : List Char → List Char
  | '-' :: ' ' :: '[' :: 'x' :: ']' :: rest => removeCheckbox rest
  | '-' :: ' ' :: '[' :: ' ' :: ']' :: rest => removeCheckbox rest
  | c :: rest => c :: removeCheckbox rest
  | [] => []

/-- The first `k` characters of the pattern text `#task-`: the part of a
potential match already consumed when the scan of `removeTaskIdAux` is in
state `k`. -/
def rtState : Nat → List Char
  | 0 => []
  | 1 => ['#']
  | 2 => ['#', 't']
  | 3 => ['#', 't', 'a']
  | 4 => ['#', 't', 'a', 's']
  | 5 => ['#', 't', 'a', 's', 'k']
  | _ => ['#', 't', 'a', 's', 'k', '-']

/-- `re.sub(r'#task-\d+', '', goal)` as a left-to-right scan.  State
`k ≤ 6` means the previous characters matched the first `k` characters of
`#task-` (held back, neither emitted nor deleted yet); state `7` means a
full match including at least one digit is being consumed (deleted).  On
a mismatch the engine emits the held-back prefix and retries only the
current character — sound because `task-` contains no `#`, so no new
match can start inside a held-back prefix. -/
def removeTaskIdAux : Nat → List Char → List Char
  | 7, [] => []
  | k, [] => rtState k
  | 7, c :: rest =>
      if c.isDigit then removeTaskIdAux 7 rest
      else if c = '#' then removeTaskIdAux 1 rest
      else c :: removeTaskIdAux 0 rest
  | 0, c :: rest =>
      if c = '#' then removeTaskIdAux 1 rest
      else c :: removeTaskIdAux 0 rest
  | 1, c :: rest =>
      if c = 't' then removeTaskIdAux 2 rest
      else if c = '#' then rtState 1 ++ removeTaskIdAux 1 rest
      else rtState 1 ++ c :: removeTaskIdAux 0 rest
  | 2, c :: rest =>
      if c = 'a' then removeTaskIdAux 3 rest
      else if c = '#' then rtState 2 ++ removeTaskIdAux 1 rest
      else rtState 2 ++ c :: removeTaskIdAux 0 rest
  | 3, c :: rest =>
      if c = 's' then removeTaskIdAux 4 rest
      else if c = '#' then rtState 3 ++ removeTaskIdAux 1 rest
      else rtState 3 ++ c :: removeTaskIdAux 0 rest
  | 4, c :: rest =>
      if c = 'k' then removeTaskIdAux 5 rest
      else if c = '#' then rtState 4 ++ removeTaskIdAux 1 rest
      else rtState 4 ++ c :: removeTaskIdAux 0 rest
  | 5, c :: rest =>
      if c = '-' then removeTaskIdAux 6 rest
      else if c = '#' then rtState 5 ++ removeTaskIdAux 1 rest
      else rtState 5 ++ c :: removeTaskIdAux 0 rest
  | k, c :: rest =>
      if c.isDigit then removeTaskIdAux 7 rest
      else if c = '#' then rtState k ++ removeTaskIdAux 1 rest
      else rtState k ++ c :: removeTaskIdAux 0 rest

/-- `re.sub(r'#task-\d+', '', goal)`: delete every (leftmost,
non-overlapping, greedy) task-identifier hashtag occurrence. -/
def removeTaskId (l : List Char) : List Char := removeTaskIdAux 0 l

/-- Match `#task-(\d+)` exactly at the start of the string: the captured
group is the maximal digit run after `#task-`, which must be nonempty. -/
def matchTaskAt : List Char → Option Nat
  | '#' :: 't' :: 'a' :: 's' :: 'k' :: '-' :: c :: rest =>
      if c.isDigit then some (digitsVal (c :: rest.takeWhile Char.isDigit))
      else none
  | _ => none

/-- `re.search(r'#task-(\d+)', line)`: value of the first (leftmost)
task-identifier hashtag in a line, if any — the engine tries to match at
each position in turn. -/
def reSearchTaskNum : List Char → Option Nat
  | [] => none
  | c :: rest =>
      match matchTaskAt (c :: rest) with
      | some n => some n
      | none => reSearchTaskNum rest

/-- Does the string contain a checkbox occurrence (`- [ ]` or `- [x]`)? -/
def hasCheckbox : List Char → Bool
  | '-' :: ' ' :: '[' :: 'x' :: ']' :: _ => true
  | '-' :: ' ' :: '[' :: ' ' :: ']' :: _ => true
  | _ :: rest => hasCheckbox rest
  | [] => false

/-- `re.sub(r'\s+', ' ', goal)`, one character at a time: a whitespace
character opens (or continues) a run; only the first of a run emits a
single space.  The flag records whether the previous character was
whitespace. -/
def collapseWsAux : Bool → List Char → List Char
  | _, [] => []
  | prevWs, c :: rest =>
      if isPySpace c then
        if prevWs then collapseWsAux true rest else ' ' :: collapseWsAux true rest
      else c :: collapseWsAux false rest

/-- `re.sub(r'\s+', ' ', goal)`: collapse each whitespace run to one space. -/
def collapseWs (l : List Char) : List Char := collapseWsAux false l

/-- Python `str.strip()`: drop whitespace from both ends. -/
def pyStrip (l : List Char) : List Char :=
  ((l.dropWhile isPySpace).reverse.dropWhile isPySpace).reverse

/-- `sanitize_goal` from `src/utils/task_sanitize.py`.  The diagnostic
warnings it prints to stderr are side effects not modelled here; the
returned string is modelled exactly.  The per-character removal loop over
the dangerous-character list has the same net effect on the string as a
single filter, since removing one character never introduces another. -/
def sanitize_goal (goal : List Char) : List Char :=
  if goal = [] then []
  else
    let g1 := goal.map (fun c => if c = '\n' ∨ c = '\r' then ' ' else c)
    let g2 := removeCheckbox g1
    let g3 := removeTaskId g2
    let g4 := g3.filter (fun c => !isDangerous c)
    let g5 := collapseWs g4
    let g6 := if 200 < g5.length then g5.take 200 ++ s2l "..." else g5
    pyStrip g6

/-- Characters allowed in a tag token: `[a-zA-Z0-9_-]`. -/
def isTagChar (c : Char) : Bool :=
  (('a' ≤ c && c ≤ 'z') || ('A' ≤ c && c ≤ 'Z') || ('0' ≤ c && c ≤ '9') ||
    c == '_' || c == '-')

/-- Python `str.split()` with no separator: split on whitespace runs,
dropping empty tokens.  `acc` holds the current token, reversed. -/
def pySplitAux (acc : List Char) : List Char → List (List Char)
  | [] => if acc = [] then [] else [acc.reverse]
  | c :: rest =>
      if isPySpace c then
        if acc = [] then pySplitAux [] rest
        else acc.reverse :: pySplitAux [] rest
      else pySplitAux (c :: acc) rest

/-- Python `str.split()` with no separator. -/
def pySplit (l : List Char) : List (List Char) := pySplitAux [] l

/-- The `ValueError` raised by `validate_tags` in
`src/utils/todo_validation.py` (the spec calls it `TagFormatError`),
carrying the offending token it names in its message. -/
inductive TagError where
  | invalidTag (tok : List Char)
  | tagTooLong (tok : List Char)
  deriving DecidableEq, Repr

/-- Per-token check of `validate_tags`, in source order: the character
class `^[a-zA-Z0-9_-]+$` is checked before the 32-character limit. -/
def checkTag (tok : List Char) : Option TagError :=
  if !(!tok.isEmpty && tok.all isTagChar) then some (.invalidTag tok)
  else if 32 < tok.length then some (.tagTooLong tok)
  else none

/-- First failing token of the loop in `validate_tags`. -/
def firstTagError : List (List Char) → Option TagError
  | [] => none
  | tok :: rest =>
      match checkTag tok with
      | some e => some e
      | none => firstTagError rest

/-- `validate_tags` from `src/utils/todo_validation.py`: the empty string
is returned unchanged; otherwise every whitespace-separated token must
match `^[a-zA-Z0-9_-]+$` and be at most 32 characters, and the input is
returned verbatim. -/
def validate_tags (tags : List Char) : Except TagError (List Char) :=
  if tags = [] then .ok []
  else
    match firstTagError (pySplit tags) with
    | some e => .error e
    | none => .ok tags

/-- Modelled from the spec: `sanitize_tags`, imported by
`append_new_tasks` from `task_sanitize`, is absent from the source tree
under `src/`.  Per spec §4.3 (Tag sanitizer), every space-separated token
must match `[A-Za-z0-9_-]+` and be at most 32 characters, failing with a
`TagFormatError` naming the offending token, and the validated tags
string is returned — the same contract as `validate_tags`. -/
def sanitize_tags (tags : List Char) : Except TagError (List Char) :=
  validate_tags tags

/-- `validate_priority` from `src/utils/todo_validation.py`: membership
in the closed set `{critical, high, medium, low}`; `ValueError` (modelled
as `Except.error`) otherwise. -/
def validate_priority (priority : List Char) : Except Unit (List Char) :=
  if priority = s2l "critical" ∨ priority = s2l "high" ∨
      priority = s2l "medium" ∨ priority = s2l "low" then .ok priority
  else .error ()

/-- `re.match(r'^task-\d+$', task_id)` of `validate_task_id`. -/
def isValidTaskId : List Char → Bool
  | 't' :: 'a' :: 's' :: 'k' :: '-' :: ds => !ds.isEmpty && ds.all Char.isDigit
  | _ => false

/-- `re.match(r'task-(\d+)', task_id)` used by `sync_tasks` to extract the
numeric suffix: an anchored-at-start (not full) match. -/
def parseTaskNum : List Char → Option Nat
  | 't' :: 'a' :: 's' :: 'k' :: '-' :: c :: rest =>
      if c.isDigit then some (digitsVal (c :: rest.takeWhile Char.isDigit))
      else none
  | _ => none

/-- Characters `shlex.quote` leaves unquoted: ASCII word characters plus
`@` `%` `+` `=` `:` `,` `.` slash and hyphen. -/
def shlexSafe (c : Char) : Bool :=
  (('a' ≤ c && c ≤ 'z') || ('A' ≤ c && c ≤ 'Z') || ('0' ≤ c && c ≤ '9') ||
    c == '_' || c == '@' || c == '%' || c == '+' || c == '=' || c == ':' ||
    c == ',' || c == '.' || c == '/' || c == '-')

/-- The single-quote character. -/
def sqChar : Char := Char.ofNat 39

/-- The double-quote character. -/
def dqChar : Char := Char.ofNat 34

/-- Python `shlex.quote`: empty strings and strings with unsafe characters
are wrapped in single quotes, with every embedded single quote replaced by
the five-character sequence quote–doublequote–quote–doublequote–quote. -/
def shlexQuote (s : List Char) : List Char :=
  if s = [] then [sqChar, sqChar]
  else if s.all shlexSafe then s
  else sqChar :: (s.flatMap fun c => if c = sqChar then [sqChar, dqChar, sqChar, dqChar, sqChar] else [c]) ++ [sqChar]

/-- Python `' '.join`. -/
def joinSpace : List (List Char) → List Char
  | [] => []
  | [x] => x
  | x :: rest => x ++ ' ' :: joinSpace rest

/-- A task record from `tasks.yml`, as accessed by `todo_sync.py`: a
string-keyed mapping, of which only these keys are read.  A `none` field
models an absent key; all present values are modelled as the strings they
are formatted as.  (`task['id']` raises `KeyError` when absent; every
other access uses `.get` with a default.) -/
structure TaskRec where
  id : Option (List Char)
  goal : Option (List Char)
  status : Option (List Char)
  priority : Option (List Char)
  due : Option (List Char)
  completed_at : Option (List Char)
  type : Option (List Char)
  deriving DecidableEq, Repr

/-- The metadata part of the checklist line built by the loop body of
`append_new_tasks`, before the hashtags: checkbox, sanitized goal, quoted
priority, optional due date, creation date, optional completion date —
the successive `line` and `line +=` steps of the Python code. -/
def lineBase (t : TaskRec) (syncDate : List Char) : List Char :=
  let goal := sanitize_goal (t.goal.getD [])
  let status := t.status.getD (s2l "pending")
  let checkbox := if status = s2l "completed" then s2l "- [x]" else s2l "- [ ]"
  let priority := shlexQuote (t.priority.getD (s2l "medium"))
  let line1 := checkbox ++ ' ' :: goal ++ s2l " | Priority: " ++ priority
  let line2 :=
    match t.due with
    | some dd =>
        if dd = [] then line1
        else line1 ++ s2l " | Due: " ++ dd.takeWhile (fun c => c != 'T')
    | none => line1
  let line3 := line2 ++ s2l " | Created: " ++ syncDate
  if status = s2l "completed" then
    line3 ++ s2l " | Completed: " ++
      (match t.completed_at with
       | some ca => if ca = [] then syncDate else ca.takeWhile (fun c => c != 'T')
       | none => syncDate)
  else line3

/-- The tag list after the task id: `tags.append(task_type)` runs only
for a truthy (present, nonempty) `type` field. -/
def taskTypeTags (t : TaskRec) : List (List Char) :=
  match t.type with
  | some ty => if ty = [] then [] else [ty]
  | none => []

/-- The loop body of `append_new_tasks` in `src/utils/todo_sync.py`:
render one task as its checklist line, or `none` when the task is skipped
(`KeyError` on a missing id, `ValueError` from `validate_task_id`, or a
tag error from `sanitize_tags` — all caught by the `except` clause). -/
def renderTask (t : TaskRec) (syncDate : List Char) : Option (List Char) :=
  match t.id with
  | none => none
  | some tid =>
    if !isValidTaskId tid then none
    else
      match sanitize_tags (joinSpace (tid :: taskTypeTags t)) with
      | .error _ => none
      | .ok tagsStr =>
          if tagsStr = [] then some (lineBase t syncDate)
          else some (lineBase t syncDate ++
            ' ' :: joinSpace ((pySplit tagsStr).map (fun tg => '#' :: tg)))

/-- The lines successfully rendered (and hence written) by the loop of
`append_new_tasks`, in order; skipped tasks contribute nothing. -/
def rendered_lines (ts : List TaskRec) (syncDate : List Char) : List (List Char) :=
  ts.filterMap (fun t => renderTask t syncDate)

/-- `append_new_tasks` from `src/utils/todo_sync.py`: append each
successfully rendered line, newline-terminated, to the checklist text;
return the count of appended tasks and the new text. -/
def append_new_tasks (ts : List TaskRec) (syncDate : List Char) (text : List Char) :
    Nat × List Char :=
  ((rendered_lines ts syncDate).length,
    text ++ (rendered_lines ts syncDate).foldr (fun l acc => l ++ '\n' :: acc) [])

/-- `filter_pending_tasks` from `src/utils/todo_sync.py`: keep records
whose `status` is exactly `pending` or `completed`.  (The `isinstance`
dict check is implicit: `Task` models exactly the dict records.) -/
def filter_pending_tasks (tasks : List TaskRec) : List TaskRec :=
  tasks.filter (fun t =>
    t.status == some (s2l "pending") || t.status == some (s2l "completed"))

/-- Python `readlines` on the text of `todo.md`: split after each
newline, keeping the terminator; a final unterminated chunk is kept.
`acc` holds the current line, reversed. -/
def pyReadlinesAux (acc : List Char) : List Char → List (List Char)
  | [] => if acc = [] then [] else [acc.reverse]
  | c :: rest =>
      if c = '\n' then (acc.reverse ++ ['\n']) :: pyReadlinesAux [] rest
      else pyReadlinesAux (c :: acc) rest

/-- Python `readlines`. -/
def pyReadlines (text : List Char) : List (List Char) := pyReadlinesAux [] text

/-- Python `l[-n:]`. -/
def takeLast {α : Type} (n : Nat) (l : List α) : List α := l.drop (l.length - n)

/-- The reverse scan loop of `get_max_task_id`: first line with a
`#task-(\d+)` match wins; `0` when none matches. -/
def scanBack : List (List Char) → Nat
  | [] => 0
  | l :: rest =>
      match reSearchTaskNum l with
      | some n => n
      | none => scanBack rest

/-- `get_max_task_id` from `src/utils/todo_sync.py`, with the checklist
file content passed explicitly: `none` models a missing `todo.md` (the
`FileNotFoundError` branch touches it into existence, the one side
effect); the second component is the file content afterwards. -/
def get_max_task_id (todo : Option (List Char)) : Nat × List Char :=
  match todo with
  | none => (0, [])
  | some text => (scanBack ((takeLast 100 (pyReadlines text)).reverse), text)

/-- Outcome reported by `sync_tasks`: either `No new tasks to import`, or
`Imported n new tasks` with the number also skipped as existing. -/
inductive SyncOutcome where
  | noNew
  | imported (n skipped : Nat)
  deriving DecidableEq, Repr

/-- `sync_tasks` from `src/utils/todo_sync.py`, after loading: filter to
actionable statuses, compute the watermark, select tasks whose
`task-(\d+)` numeric suffix strictly exceeds it, append those, and report.
The checklist text is threaded explicitly (`none` = missing file). -/
def sync_tasks (tasks : List TaskRec) (todo : Option (List Char)) (syncDate : List Char) :
    SyncOutcome × List Char :=
  let pending := filter_pending_tasks tasks
  let wm := get_max_task_id todo
  let newTasks := pending.filter (fun t =>
    match parseTaskNum (t.id.getD []) with
    | some n => decide (wm.1 < n)
    | none => false)
  if newTasks.isEmpty then (.noNew, wm.2)
  else
    let r := append_new_tasks newTasks syncDate wm.2
    (.imported r.1 (pending.length - r.1), r.2)

/-- A parsed YAML value, as returned by `yaml.safe_load` and inspected by
`load_tasks_from_yaml` (only the mapping/sequence structure matters). -/
inductive Yaml where
  | null
  | bool (b : Bool)
  | num (n : Int)
  | str (s : List Char)
  | seq (xs : List Yaml)
  | map (kvs : List (List Char × Yaml))

/-- Errors of `load_tasks_from_yaml`: `FileNotFoundError`
(spec: `SourceNotFoundError`) and the two `ValueError`s
(spec: `SourceFormatError`). -/
inductive LoadError where
  | sourceNotFound
  | notDict
  | tasksNotList
  deriving DecidableEq, Repr

/-- Python `dict.get` on the parsed mapping. -/
def lookupKey (kvs : List (List Char × Yaml)) (k : List Char) : Option Yaml :=
  (kvs.find? (fun kv => kv.1 == k)).map (fun kv => kv.2)

/-- `load_tasks_from_yaml` from `src/utils/todo_sync.py`, with the parse
result of `tasks.yml` passed explicitly: `none` models a missing file. -/
def load_tasks_from_yaml (file : Option Yaml) : Except LoadError (List Yaml) :=
  match file with
  | none => .error .sourceNotFound
  | some (.map kvs) =>
      match lookupKey kvs (s2l "tasks") with
      | none => .ok []
      | some (.seq ts) => .ok ts
      | some _ => .error .tasksNotList
  | some _ => .error .notDict

/-- The single task of the end-to-end example: source record
`{id: task-1, goal: "Fix bug", status: pending, priority: high}`. -/
def fixBugTask : TaskRec :=
  ⟨some (s2l "task-1"), some (s2l "Fix bug"), some (s2l "pending"),
    some (s2l "high"), none, none, none⟩

/-- A minimal pending task with the given id and goal and no other fields. -/
def plainTask (i g : String) : TaskRec :=
  ⟨some (s2l i), some (s2l g), some (s2l "pending"), none, none, none, none⟩

/-- A task source whose pending tasks are listed in decreasing id order:
`task-2` before `task-1`. -/
def outOfOrderTasks : List TaskRec := [plainTask "task-2" "b", plainTask "task-1" "a"]

/-- A pending task with an arbitrary priority field, used to probe the
rendering path. -/
def priorityProbeTask (p : Option (List Char)) : TaskRec :=
  ⟨some (s2l "task-1"), some (s2l "Fix bug"), some (s2l "pending"), p, none, none, none⟩

/-- A string free of `#`, newline and carriage return: a free-text field
with this property cannot forge or displace a `#task-<digits>` hashtag in
a rendered line, nor break the line into several physical lines. -/
def fieldClean (s : List Char) : Bool :=
  s.all (fun c => c != '#' && c != '\n' && c != '\r')

/-- All free-text fields of a task that are copied into its rendered
checklist line are clean (the id, status and type fields need no
condition: the id is validated against `task-\d+`, the status value never
appears in the line, and the type only appears if it passes the tag
character class). -/
def taskClean (t : TaskRec) : Bool :=
  fieldClean (t.goal.getD []) && fieldClean (t.priority.getD (s2l "medium")) &&
    fieldClean (t.due.getD []) && fieldClean (t.completed_at.getD [])

/-- The numeric id suffixes of the pending tasks, as extracted by the
`re.match(r'task-(\d+)', ...)` filter of `sync_tasks`, are nondecreasing
in list order. -/
def MonotoneIds (pending : List TaskRec) : Prop :=
  pending.Pairwise (fun a b => ∀ m n,
    parseTaskNum (a.id.getD []) = some m → parseTaskNum (b.id.getD []) = some n → m ≤ n)

/-- The checklist text is empty or newline-terminated, so an appended
line starts on a fresh physical line. -/
def NewlineTerminated (text : List Char) : Prop :=
  text = [] ∨ text.getLast? = some '\n'

/-- Modelled from the spec: the ChecklistLine grammar of spec section 3 is
`<checkbox> <sanitized goal> | Priority: ... <hashtags>` where the
checkbox is `- [ ]` or `- [x]`.  The grammar itself appears nowhere in
the source; only this necessary prefix condition is needed here — a line
that does not begin with a checkbox does not match the grammar. -/
def startsWithCheckbox : List Char → Bool
  | '-' :: ' ' :: '[' :: ' ' :: ']' :: _ => true
  | '-' :: ' ' :: '[' :: 'x' :: ']' :: _ => true
  | _ => false

/-- No two adjacent characters are both whitespace. -/
def NoWsRun (l : List Char) : Prop :=
  l.Chain' (fun a b => ¬(isPySpace a = true ∧ isPySpace b = true))

/-- The newline-joining of rendered lines performed by `append_new_tasks`
(each line is emitted followed by a newline). -/
def joinNL (ls : List (List Char)) : List Char :=
  ls.foldr (fun l acc => l ++ '\n' :: acc) []

/-- The new-task selection of `sync_tasks`: pending records whose
`task-(\d+)` numeric suffix strictly exceeds the watermark. -/
def selectNew (wm : Nat) (pending : List TaskRec) : List TaskRec :=
  pending.filter (fun t =>
    match parseTaskNum (t.id.getD []) with
    | some n => decide (wm < n)
    | none => false)

/-! ## Character-level facts about the goal sanitizer -/

theorem mem_removeCheckbox {c : Char} {l : List Char} (h : c ∈ removeCheckbox l) :
    c ∈ l := by
  induction l using removeCheckbox.induct with
  | case1 rest ih => exact List.mem_cons_of_mem _ (List.mem_cons_of_mem _
      (List.mem_cons_of_mem _ (List.mem_cons_of_mem _ (List.mem_cons_of_mem _ (ih h)))))
  | case2 rest ih => exact List.mem_cons_of_mem _ (List.mem_cons_of_mem _
      (List.mem_cons_of_mem _ (List.mem_cons_of_mem _ (List.mem_cons_of_mem _ (ih h)))))
  | case3 x rest h1 h2 ih =>
      rw [removeCheckbox.eq_def] at h
      repeat' split at h
      all_goals simp_all
      rcases h with he | hm
      · simp [he]
      · simp [ih hm]
  | case4 => exact absurd h (List.not_mem_nil c)

theorem mem_rtState {c : Char} {k : Nat} (h : c ∈ rtState k) :
    c ∈ ['#', 't', 'a', 's', 'k', '-'] := by
  rcases k with _ | _ | _ | _ | _ | _ | k <;> simp_all [rtState] <;> tauto

set_option maxHeartbeats 2000000 in
theorem mem_removeTaskIdAux {c : Char} (k : Nat) (l : List Char)
    (h : c ∈ removeTaskIdAux k l) : c ∈ rtState k ∨ c ∈ l := by
  induction k, l using removeTaskIdAux.induct <;>
    simp only [removeTaskIdAux] at h <;>
    (repeat' split at h) <;> simp_all [rtState] <;> tauto

theorem mem_removeTaskId {c : Char} {l : List Char} (h : c ∈ removeTaskId l) :
    c ∈ l := by
  rcases mem_removeTaskIdAux 0 l h with h1 | h1
  · exact absurd h1 (by simp [rtState])
  · exact h1

theorem mem_collapseWsAux {c : Char} (b : Bool) (l : List Char)
    (h : c ∈ collapseWsAux b l) : c = ' ' ∨ c ∈ l := by
  induction b, l using collapseWsAux.induct with
  | case1 => exact absurd h (List.not_mem_nil c)
  | case2 c2 rest hsp ih =>
      rw [collapseWsAux.eq_def] at h
      simp only [hsp, if_true] at h
      rcases ih h with h1 | h1
      · exact Or.inl h1
      · exact Or.inr (List.mem_cons_of_mem _ h1)
  | case3 b2 c2 rest hsp hb ih =>
      rw [collapseWsAux.eq_def] at h
      simp only [hsp, if_true, if_neg hb] at h
      rcases List.mem_cons.mp h with he | hm
      · exact Or.inl he
      · rcases ih hm with h1 | h1
        · exact Or.inl h1
        · exact Or.inr (List.mem_cons_of_mem _ h1)
  | case4 b2 c2 rest hsp ih =>
      rw [collapseWsAux.eq_def] at h
      simp only [hsp, if_false, Bool.false_eq_true] at h
      rcases List.mem_cons.mp h with he | hm
      · exact Or.inr (List.mem_cons.mpr (Or.inl he))
      · rcases ih hm with h1 | h1
        · exact Or.inl h1
        · exact Or.inr (List.mem_cons_of_mem _ h1)

theorem mem_pyStrip {c : Char} {l : List Char} (h : c ∈ pyStrip l) : c ∈ l := by
  unfold pyStrip at h
  rw [List.mem_reverse] at h
  have h2 := (List.dropWhile_sublist isPySpace).mem h
  rw [List.mem_reverse] at h2
  exact (List.dropWhile_sublist isPySpace).mem h2

theorem length_pyStrip_le (l : List Char) : (pyStrip l).length ≤ l.length := by
  unfold pyStrip
  rw [List.length_reverse]
  calc ((l.dropWhile isPySpace).reverse.dropWhile isPySpace).length
      ≤ (l.dropWhile isPySpace).reverse.length := (List.dropWhile_sublist _).length_le
    _ = (l.dropWhile isPySpace).length := List.length_reverse _
    _ ≤ l.length := (List.dropWhile_sublist _).length_le

theorem sanitize_goal_chars {g : List Char} {c : Char} (hc : c ∈ sanitize_goal g) :
    isDangerous c = false ∧ ¬c = '\n' ∧ ¬c = '\r' ∧ (c ∈ g ∨ c = ' ' ∨ c = '.') := by
  unfold sanitize_goal at hc
  by_cases hg : g = []
  · simp [hg] at hc
  · rw [if_neg hg] at hc
    simp only [] at hc
    have h1 := mem_pyStrip hc
    have h2 : c ∈ collapseWs (((removeTaskId (removeCheckbox
        (g.map (fun c => if c = '\n' ∨ c = '\r' then ' ' else c)))).filter
          (fun c => !isDangerous c))) ∨ c = '.' := by
      split at h1
      · rcases List.mem_append.mp h1 with ha | hb
        · exact Or.inl ((List.take_sublist _ _).mem ha)
        · have h3 : s2l "..." = ['.', '.', '.'] := rfl
          rw [h3] at hb
          simp at hb
          exact Or.inr hb
      · exact Or.inl h1
    rcases h2 with h2 | h2
    · rcases mem_collapseWsAux false _ h2 with hsp | h3
      · subst hsp
        exact ⟨by decide, by decide, by decide, Or.inr (Or.inl rfl)⟩
      · have h4 := List.mem_filter.mp h3
        have hdang : isDangerous c = false := by
          have := h4.2
          simp at this
          exact this
        have h5 := mem_removeCheckbox (mem_removeTaskId h4.1)
        rcases List.mem_map.mp h5 with ⟨a, ha, hfa⟩
        by_cases hanl : a = '\n' ∨ a = '\r'
        · rw [if_pos hanl] at hfa
          subst hfa
          exact ⟨by decide, by decide, by decide, Or.inr (Or.inl rfl)⟩
        · rw [if_neg hanl] at hfa
          subst hfa
          push_neg at hanl
          exact ⟨hdang, hanl.1, hanl.2, Or.inl ha⟩
    · subst h2
      exact ⟨by decide, by decide, by decide, Or.inr (Or.inr rfl)⟩

theorem sanitize_goal_length (g : List Char) : (sanitize_goal g).length ≤ 203 := by
  unfold sanitize_goal
  by_cases hg : g = []
  · simp [hg]
  · rw [if_neg hg]
    simp only []
    refine le_trans (length_pyStrip_le _) ?_
    split
    · rw [List.length_append, List.length_take]
      have h3 : (s2l "...").length = 3 := rfl
      omega
    · omega

/-! ## C3: goal sanitizer output contract -/

/-- C3 counterexample: the goal sanitizer's output can contain a checkbox
substring.  For the input `- [| ]` (no checkbox — the `|` splits it), the
dangerous-character removal of step 4 deletes the `|` and thereby forges
the checkbox `- [ ]`, after the checkbox-stripping step 2 has already
run; so the claimed "no checkbox substring in the output" is false. -/
theorem sanitize_goal_output_contract_cex :
    sanitize_goal (s2l "- [| ]") = s2l "- [ ]" ∧
      hasCheckbox (sanitize_goal (s2l "- [| ]")) = true ∧
      hasCheckbox (s2l "- [| ]") = false :=
  ⟨rfl, rfl, rfl⟩

/-- C3 amended: for every input string the goal sanitizer returns a
single-line string of at most 203 characters containing no newline or
carriage return and none of the characters `;` `|` `&` `$` backtick `<`
`>`.  (The further claimed absence of checkbox and `#task-<digits>`
substrings does not hold, see the counterexample: later removal steps can
forge them.) -/
theorem sanitize_goal_bounded_single_line_metachar_free (g : List Char) :
    (sanitize_goal g).length ≤ 203 ∧
      ∀ c ∈ sanitize_goal g, ¬c = '\n' ∧ ¬c = '\r' ∧ isDangerous c = false :=
  ⟨sanitize_goal_length g, fun _ hc =>
    ⟨(sanitize_goal_chars hc).2.1, (sanitize_goal_chars hc).2.2.1,
      (sanitize_goal_chars hc).1⟩⟩

/-- Witness for the amended C3 theorem at the concrete input `a;b`. -/
theorem sanitize_goal_bounded_single_line_metachar_free_witness :
    (sanitize_goal (s2l "a;b")).length ≤ 203 ∧
      (¬( 'a' = '\n') ∧ ¬( 'a' = '\r') ∧ isDangerous 'a' = false) :=
  ⟨(sanitize_goal_bounded_single_line_metachar_free (s2l "a;b")).1,
    (sanitize_goal_bounded_single_line_metachar_free (s2l "a;b")).2 'a' (by decide)⟩

/-! ## Whitespace normal form: machinery for sanitizer idempotence -/

theorem cw_space {c : Char} (b : Bool) (l : List Char)
    (h : c ∈ collapseWsAux b l) (hs : isPySpace c = true) : c = ' ' := by
  induction b, l using collapseWsAux.induct with
  | case1 => exact absurd h (List.not_mem_nil c)
  | case2 c2 rest hsp ih =>
      rw [collapseWsAux.eq_def] at h
      simp only [hsp, if_true] at h
      exact ih h
  | case3 b2 c2 rest hsp hb ih =>
      rw [collapseWsAux.eq_def] at h
      simp only [hsp, if_true, if_neg hb] at h
      rcases List.mem_cons.mp h with he | hm
      · exact he
      · exact ih hm
  | case4 b2 c2 rest hsp ih =>
      rw [collapseWsAux.eq_def] at h
      simp only [hsp, if_false, Bool.false_eq_true] at h
      rcases List.mem_cons.mp h with he | hm
      · subst he; exact absurd hs (by simp [hsp])
      · exact ih hm

theorem cw_true_head {c : Char} (l : List Char)
    (h : (collapseWsAux true l).head? = some c) : isPySpace c = false := by
  induction l with
  | nil => simp [collapseWsAux] at h
  | cons c2 rest ih =>
      rw [collapseWsAux.eq_def] at h
      by_cases hsp : isPySpace c2
      · simp only [hsp, if_true] at h
        exact ih h
      · simp only [hsp, Bool.false_eq_true, if_false, List.head?_cons,
          Option.some.injEq] at h
        subst h
        simpa using hsp

theorem cw_chain (b : Bool) (l : List Char) : NoWsRun (collapseWsAux b l) := by
  induction b, l using collapseWsAux.induct with
  | case1 x => simp [collapseWsAux, NoWsRun]
  | case2 c2 rest hsp ih =>
      rw [collapseWsAux.eq_def]
      simp only [hsp, if_true]
      exact ih
  | case3 b2 c2 rest hsp hb ih =>
      rw [collapseWsAux.eq_def]
      simp only [hsp, if_true, if_neg hb]
      refine List.chain'_cons'.mpr ⟨?_, ih⟩
      intro y hy
      have := cw_true_head rest hy
      simp [this]
  | case4 b2 c2 rest hsp ih =>
      rw [collapseWsAux.eq_def]
      simp only [hsp, Bool.false_eq_true, if_false]
      refine List.chain'_cons'.mpr ⟨?_, ih⟩
      intro y hy
      simp [hsp]

theorem collapse_id_aux (l : List Char)
    (hsp : ∀ c ∈ l, isPySpace c = true → c = ' ') (hch : NoWsRun l) :
    collapseWsAux false l = l ∧
      ((∀ h0, l.head? = some h0 → isPySpace h0 = false) → collapseWsAux true l = l) := by
  induction l with
  | nil => exact ⟨rfl, fun _ => rfl⟩
  | cons c rest ih =>
      have hch2 : NoWsRun rest := List.Chain'.tail hch
      have hsp2 : ∀ c ∈ rest, isPySpace c = true → c = ' ' :=
        fun c hc => hsp c (List.mem_cons_of_mem _ hc)
      rcases ih hsp2 hch2 with ⟨ih1, ih2⟩
      by_cases hc : isPySpace c
      · have hhead : ∀ h0, rest.head? = some h0 → isPySpace h0 = false := by
          intro h0 hh0
          have := (List.chain'_cons'.mp hch).1 h0 hh0
          by_contra hcon
          simp only [Bool.not_eq_false] at hcon
          exact this ⟨hc, hcon⟩
        constructor
        · rw [collapseWsAux.eq_def]
          simp only [hc, if_true, Bool.false_eq_true, if_false]
          rw [ih2 hhead, hsp c (List.mem_cons_self c rest) hc]
        · intro hh
          exact absurd hc (by simp [hh c rfl])
      · constructor
        · rw [collapseWsAux.eq_def]
          simp only [hc, Bool.false_eq_true, if_false]
          rw [ih1]
        · intro _
          rw [collapseWsAux.eq_def]
          simp only [hc, Bool.false_eq_true, if_false]
          rw [ih1]

theorem chain'_take {R : Char → Char → Prop} {l : List Char} (n : Nat)
    (h : l.Chain' R) : (l.take n).Chain' R := by
  induction l generalizing n with
  | nil => simp
  | cons c rest ih =>
      cases n with
      | zero => simp
      | succ m =>
          rw [List.take_succ_cons]
          refine List.chain'_cons'.mpr ⟨?_, ih m (List.Chain'.tail h)⟩
          intro y hy
          have hy2 : rest.head? = some y := by
            cases rest with
            | nil => simp at hy
            | cons r rs =>
                cases m with
                | zero => simp at hy
                | succ m2 => simpa using hy
          exact (List.chain'_cons'.mp h).1 y hy2

theorem chain'_dropWhile {R : Char → Char → Prop} {l : List Char} (p : Char → Bool)
    (h : l.Chain' R) : (l.dropWhile p).Chain' R := by
  induction l with
  | nil => simp
  | cons c rest ih =>
      rw [List.dropWhile_cons]
      split
      · exact ih (List.Chain'.tail h)
      · exact h

theorem noWsRun_reverse {l : List Char} (h : NoWsRun l) : NoWsRun l.reverse := by
  rw [NoWsRun, List.chain'_reverse]
  exact h.imp (fun a b hab ⟨x, y⟩ => hab ⟨y, x⟩)

theorem dropWhile_head_false {p : Char → Bool} {l : List Char} {c : Char}
    {r : List Char} (h : l.dropWhile p = c :: r) : p c = false := by
  induction l with
  | nil => simp at h
  | cons a rest ih =>
      rw [List.dropWhile_cons] at h
      split at h
      · exact ih h
      · injection h with h1 h2
        subst h1
        simp_all

theorem dropWhile_eq_self_of_head {p : Char → Bool} {l : List Char}
    (h : ∀ c, l.head? = some c → p c = false) : l.dropWhile p = l := by
  cases l with
  | nil => rfl
  | cons c rest =>
      rw [List.dropWhile_cons, if_neg]
      simp [h c rfl]

theorem pyStrip_idem (l : List Char) : pyStrip (pyStrip l) = pyStrip l := by
  by_cases ht : pyStrip l = []
  · rw [ht]; rfl
  · have htB : pyStrip l = ((l.dropWhile isPySpace).reverse.dropWhile isPySpace).reverse :=
      rfl
    have hBne : (l.dropWhile isPySpace).reverse.dropWhile isPySpace ≠ [] := by
      intro hemp
      rw [htB, hemp] at ht
      exact ht rfl
    have hlastB : ((l.dropWhile isPySpace).reverse.dropWhile isPySpace).getLast? =
        (l.dropWhile isPySpace).reverse.getLast? := by
      rcases List.dropWhile_suffix (l := (l.dropWhile isPySpace).reverse) isPySpace with
        ⟨pre, hpre⟩
      conv_rhs => rw [← hpre]
      rw [List.getLast?_append_of_ne_nil _ hBne]
    have hheadA : ∀ c, (l.dropWhile isPySpace).head? = some c → isPySpace c = false := by
      intro c hc
      cases hA2 : l.dropWhile isPySpace with
      | nil => rw [hA2] at hc; simp at hc
      | cons a as =>
          rw [hA2] at hc
          simp only [List.head?_cons, Option.some.injEq] at hc
          subst hc
          exact dropWhile_head_false hA2
    have hheadt : ∀ c, (pyStrip l).head? = some c → isPySpace c = false := by
      intro c hc
      rw [htB, List.head?_reverse, hlastB, List.getLast?_reverse] at hc
      exact hheadA c hc
    have hheadB : ∀ c, ((l.dropWhile isPySpace).reverse.dropWhile isPySpace).head? =
        some c → isPySpace c = false := by
      intro c hc
      cases hB2 : (l.dropWhile isPySpace).reverse.dropWhile isPySpace with
      | nil => rw [hB2] at hc; simp at hc
      | cons b bs =>
          rw [hB2] at hc
          simp only [List.head?_cons, Option.some.injEq] at hc
          subst hc
          exact dropWhile_head_false hB2
    show (((pyStrip l).dropWhile isPySpace).reverse.dropWhile isPySpace).reverse = pyStrip l
    rw [dropWhile_eq_self_of_head hheadt]
    conv_lhs => rw [htB]
    rw [List.reverse_reverse, dropWhile_eq_self_of_head hheadB, ← htB]

theorem map_eq_self_of_fixed {f : Char → Char} {l : List Char}
    (h : ∀ c ∈ l, f c = c) : l.map f = l := by
  induction l with
  | nil => rfl
  | cons c rest ih =>
      rw [List.map_cons, h c (List.mem_cons_self c rest),
        ih fun c hc => h c (List.mem_cons_of_mem _ hc)]

theorem removeCheckbox_eq_self {l : List Char} (h : hasCheckbox l = false) :
    removeCheckbox l = l := by
  induction l using removeCheckbox.induct with
  | case1 rest ih => exact absurd h (by rw [hasCheckbox]; simp)
  | case2 rest ih => exact absurd h (by rw [hasCheckbox]; simp)
  | case3 x rest h1 h2 ih =>
      have hx : hasCheckbox (x :: rest) = hasCheckbox rest := by
        rw [hasCheckbox.eq_def]
        repeat' split
        all_goals simp_all
      rw [removeCheckbox.eq_def]
      repeat' split
      all_goals simp_all
  | case4 => rfl

theorem reSearch_cons_none {c : Char} {rest : List Char}
    (h : reSearchTaskNum (c :: rest) = none) :
    matchTaskAt (c :: rest) = none ∧ reSearchTaskNum rest = none := by
  rw [reSearchTaskNum] at h
  cases hm : matchTaskAt (c :: rest) with
  | some n => rw [hm] at h; simp at h
  | none => rw [hm] at h; exact ⟨rfl, h⟩

theorem reSearch_append_none {x y : List Char}
    (h : reSearchTaskNum (x ++ y) = none) : reSearchTaskNum y = none := by
  induction x with
  | nil => simpa using h
  | cons c rest ih =>
      rw [List.cons_append] at h
      exact ih (reSearch_cons_none h).2

set_option maxHeartbeats 1000000 in
theorem removeTaskIdAux_eq_self (k : Nat) (l : List Char) :
    k ≤ 6 → reSearchTaskNum (rtState k ++ l) = none →
    removeTaskIdAux k l = rtState k ++ l := by
  induction k, l using removeTaskIdAux.induct with
  | case1 => intro hk _; exact absurd hk (by omega)
  | case2 k hk7 => intro hk _; interval_cases k <;> rfl
  | case3 c rest hdig ih => intro hk _; exact absurd hk (by omega)
  | case4 rest hdig ih => intro hk _; exact absurd hk (by omega)
  | case5 c rest hdig hne ih => intro hk _; exact absurd hk (by omega)
  | case6 rest ih =>
      intro _ hs
      have h1 := reSearch_append_none (x := rtState 0) hs
      rw [show removeTaskIdAux 0 ('#' :: rest) = removeTaskIdAux 1 rest from by
        simp [removeTaskIdAux]]
      rw [ih (by omega) (by simpa [rtState] using h1)]
      simp [rtState]
  | case7 c rest hne ih =>
      intro _ hs
      have h1 := (reSearch_cons_none (reSearch_append_none (x := rtState 0) hs)).2
      rw [show removeTaskIdAux 0 (c :: rest) = c :: removeTaskIdAux 0 rest from by
        simp [removeTaskIdAux, hne]]
      rw [ih (by omega) (by simpa [rtState] using h1)]
      simp [rtState]
  | case8 rest ih =>
      intro _ hs
      rw [show removeTaskIdAux 1 ('t' :: rest) = removeTaskIdAux 2 rest from by
        simp [removeTaskIdAux]]
      rw [ih (by omega) (by simpa [rtState] using hs)]
      simp [rtState]
  | case9 rest hne ih =>
      intro _ hs
      have h1 := reSearch_append_none (x := rtState 1) hs
      rw [show removeTaskIdAux 1 ('#' :: rest) = rtState 1 ++ removeTaskIdAux 1 rest from by
        simp [removeTaskIdAux]]
      rw [ih (by omega) (by simpa [rtState] using h1)]
      simp [rtState]
  | case10 c rest hne1 hne2 ih =>
      intro _ hs
      have h1 := (reSearch_cons_none (reSearch_append_none (x := rtState 1) hs)).2
      rw [show removeTaskIdAux 1 (c :: rest) = rtState 1 ++ c :: removeTaskIdAux 0 rest from by
        simp [removeTaskIdAux, hne1, hne2]]
      rw [ih (by omega) (by simpa [rtState] using h1)]
      simp [rtState]
  | case11 rest ih =>
      intro _ hs
      rw [show removeTaskIdAux 2 ('a' :: rest) = removeTaskIdAux 3 rest from by
        simp [removeTaskIdAux]]
      rw [ih (by omega) (by simpa [rtState] using hs)]
      simp [rtState]
  | case12 rest hne ih =>
      intro _ hs
      have h1 := reSearch_append_none (x := rtState 2) hs
      rw [show removeTaskIdAux 2 ('#' :: rest) = rtState 2 ++ removeTaskIdAux 1 rest from by
        simp [removeTaskIdAux]]
      rw [ih (by omega) (by simpa [rtState] using h1)]
      simp [rtState]
  | case13 c rest hne1 hne2 ih =>
      intro _ hs
      have h1 := (reSearch_cons_none (reSearch_append_none (x := rtState 2) hs)).2
      rw [show removeTaskIdAux 2 (c :: rest) = rtState 2 ++ c :: removeTaskIdAux 0 rest from by
        simp [removeTaskIdAux, hne1, hne2]]
      rw [ih (by omega) (by simpa [rtState] using h1)]
      simp [rtState]
  | case14 rest ih =>
      intro _ hs
      rw [show removeTaskIdAux 3 ('s' :: rest) = removeTaskIdAux 4 rest from by
        simp [removeTaskIdAux]]
      rw [ih (by omega) (by simpa [rtState] using hs)]
      simp [rtState]
  | case15 rest hne ih =>
      intro _ hs
      have h1 := reSearch_append_none (x := rtState 3) hs
      rw [show removeTaskIdAux 3 ('#' :: rest) = rtState 3 ++ removeTaskIdAux 1 rest from by
        simp [removeTaskIdAux]]
      rw [ih (by omega) (by simpa [rtState] using h1)]
      simp [rtState]
  | case16 c rest hne1 hne2 ih =>
      intro _ hs
      have h1 := (reSearch_cons_none (reSearch_append_none (x := rtState 3) hs)).2
      rw [show removeTaskIdAux 3 (c :: rest) = rtState 3 ++ c :: removeTaskIdAux 0 rest from by
        simp [removeTaskIdAux, hne1, hne2]]
      rw [ih (by omega) (by simpa [rtState] using h1)]
      simp [rtState]
  | case17 rest ih =>
      intro _ hs
      rw [show removeTaskIdAux 4 ('k' :: rest) = removeTaskIdAux 5 rest from by
        simp [removeTaskIdAux]]
      rw [ih (by omega) (by simpa [rtState] using hs)]
      simp [rtState]
  | case18 rest hne ih =>
      intro _ hs
      have h1 := reSearch_append_none (x := rtState 4) hs
      rw [show removeTaskIdAux 4 ('#' :: rest) = rtState 4 ++ removeTaskIdAux 1 rest from by
        simp [removeTaskIdAux]]
      rw [ih (by omega) (by simpa [rtState] using h1)]
      simp [rtState]
  | case19 c rest hne1 hne2 ih =>
      intro _ hs
      have h1 := (reSearch_cons_none (reSearch_append_none (x := rtState 4) hs)).2
      rw [show removeTaskIdAux 4 (c :: rest) = rtState 4 ++ c :: removeTaskIdAux 0 rest from by
        simp [removeTaskIdAux, hne1, hne2]]
      rw [ih (by omega) (by simpa [rtState] using h1)]
      simp [rtState]
  | case20 rest ih =>
      intro _ hs
      rw [show removeTaskIdAux 5 ('-' :: rest) = removeTaskIdAux 6 rest from by
        simp [removeTaskIdAux]]
      rw [ih (by omega) (by simpa [rtState] using hs)]
      simp [rtState]
  | case21 rest hne ih =>
      intro _ hs
      have h1 := reSearch_append_none (x := rtState 5) hs
      rw [show removeTaskIdAux 5 ('#' :: rest) = rtState 5 ++ removeTaskIdAux 1 rest from by
        simp [removeTaskIdAux]]
      rw [ih (by omega) (by simpa [rtState] using h1)]
      simp [rtState]
  | case22 c rest hne1 hne2 ih =>
      intro _ hs
      have h1 := (reSearch_cons_none (reSearch_append_none (x := rtState 5) hs)).2
      rw [show removeTaskIdAux 5 (c :: rest) = rtState 5 ++ c :: removeTaskIdAux 0 rest from by
        simp [removeTaskIdAux, hne1, hne2]]
      rw [ih (by omega) (by simpa [rtState] using h1)]
      simp [rtState]
  | case23 k c rest hk7 hk0 hk1 hk2 hk3 hk4 hk5 hdig ih =>
      intro hk hs
      exfalso
      have hk6 : k = 6 := by
        have n0 : k ≠ 0 := hk0
        have n1 : k ≠ 1 := hk1
        have n2 : k ≠ 2 := hk2
        have n3 : k ≠ 3 := hk3
        have n4 : k ≠ 4 := hk4
        have n5 : k ≠ 5 := hk5
        omega
      subst hk6
      rw [show rtState 6 ++ c :: rest =
        '#' :: 't' :: 'a' :: 's' :: 'k' :: '-' :: c :: rest from rfl] at hs
      rw [reSearchTaskNum] at hs
      rw [show matchTaskAt ('#' :: 't' :: 'a' :: 's' :: 'k' :: '-' :: c :: rest)
            = some (digitsVal (c :: rest.takeWhile Char.isDigit)) from by
          rw [matchTaskAt]; simp [hdig]] at hs
      simp at hs
  | case24 k rest hk7 hk0 hk1 hk2 hk3 hk4 hk5 hdig ih =>
      intro hk hs
      have hk6 : k = 6 := by
        have n0 : k ≠ 0 := hk0
        have n1 : k ≠ 1 := hk1
        have n2 : k ≠ 2 := hk2
        have n3 : k ≠ 3 := hk3
        have n4 : k ≠ 4 := hk4
        have n5 : k ≠ 5 := hk5
        omega
      subst hk6
      have h1 := reSearch_append_none (x := rtState 6) hs
      rw [show removeTaskIdAux 6 ('#' :: rest) = rtState 6 ++ removeTaskIdAux 1 rest from by
        simp [removeTaskIdAux]]
      rw [ih (by omega) (by simpa [rtState] using h1)]
      simp [rtState]
  | case25 k c rest hk7 hk0 hk1 hk2 hk3 hk4 hk5 hdig hne ih =>
      intro hk hs
      have hk6 : k = 6 := by
        have n0 : k ≠ 0 := hk0
        have n1 : k ≠ 1 := hk1
        have n2 : k ≠ 2 := hk2
        have n3 : k ≠ 3 := hk3
        have n4 : k ≠ 4 := hk4
        have n5 : k ≠ 5 := hk5
        omega
      subst hk6
      have h1 := (reSearch_cons_none (reSearch_append_none (x := rtState 6) hs)).2
      rw [show removeTaskIdAux 6 (c :: rest) = rtState 6 ++ c :: removeTaskIdAux 0 rest from by
        simp [removeTaskIdAux, hdig, hne]]
      rw [ih (by omega) (by simpa [rtState] using h1)]
      simp [rtState]

theorem removeTaskId_eq_self {l : List Char} (h : reSearchTaskNum l = none) :
    removeTaskId l = l := by
  have := removeTaskIdAux_eq_self 0 l (by omega) (by simpa [rtState] using h)
  simpa [rtState, removeTaskId] using this

theorem chain_dots : NoWsRun (s2l "...") := by
  refine List.chain'_cons'.mpr ⟨?_, List.chain'_cons'.mpr ⟨?_, ?_⟩⟩ <;>
    simp [NoWsRun] <;> decide

theorem truncate_noWsRun {l : List Char} (h : NoWsRun l) :
    NoWsRun (if 200 < l.length then l.take 200 ++ s2l "..." else l) := by
  split
  · refine List.chain'_append.mpr ⟨chain'_take 200 h, chain_dots, ?_⟩
    intro x hx y hy
    have hy2 : y = '.' := by
      have h4 : (s2l "...").head? = some '.' := rfl
      rw [h4] at hy
      simp at hy
      exact hy.symm
    subst hy2
    rintro ⟨_, h2⟩
    exact absurd h2 (by decide)
  · exact h

theorem truncate_space_eq {l : List Char}
    (h : ∀ c ∈ l, isPySpace c = true → c = ' ') :
    ∀ c ∈ (if 200 < l.length then l.take 200 ++ s2l "..." else l),
      isPySpace c = true → c = ' ' := by
  intro c hc hsp
  split at hc
  · rcases List.mem_append.mp hc with ha | hb
    · exact h c ((List.take_sublist _ _).mem ha) hsp
    · have h3 : s2l "..." = ['.', '.', '.'] := rfl
      rw [h3] at hb
      simp at hb
      subst hb
      exact absurd hsp (by decide)
  · exact h c hc hsp

theorem pyStrip_noWsRun {l : List Char} (h : NoWsRun l) : NoWsRun (pyStrip l) :=
  noWsRun_reverse (chain'_dropWhile _ (noWsRun_reverse (chain'_dropWhile _ h)))

theorem sanitize_goal_space_eq {g : List Char} :
    ∀ c ∈ sanitize_goal g, isPySpace c = true → c = ' ' := by
  intro c hc hsp
  unfold sanitize_goal at hc
  by_cases hg : g = []
  · simp [hg] at hc
  · rw [if_neg hg] at hc
    simp only [] at hc
    have h1 := mem_pyStrip hc
    refine truncate_space_eq ?_ c h1 hsp
    intro c2 hc2 hsp2
    exact cw_space false _ hc2 hsp2

theorem sanitize_goal_noWsRun (g : List Char) : NoWsRun (sanitize_goal g) := by
  unfold sanitize_goal
  by_cases hg : g = []
  · simp [hg, NoWsRun]
  · rw [if_neg hg]
    simp only []
    exact pyStrip_noWsRun (truncate_noWsRun (cw_chain false _))

theorem sanitize_goal_pyStrip (g : List Char) :
    pyStrip (sanitize_goal g) = sanitize_goal g := by
  unfold sanitize_goal
  by_cases hg : g = []
  · simp [hg]; rfl
  · rw [if_neg hg]
    simp only []
    exact pyStrip_idem _

/-! ## C4: goal sanitizer idempotence -/

/-- C4 counterexample: the goal sanitizer is not idempotent.  For the
input `- [| ]x`, the first pass removes the `|` and produces `- [ ]x`,
which contains a forged checkbox; the second pass then strips that
checkbox and returns `x`. -/
theorem sanitize_goal_not_idempotent_cex :
    sanitize_goal (s2l "- [| ]x") = s2l "- [ ]x" ∧
      sanitize_goal (sanitize_goal (s2l "- [| ]x")) = s2l "x" ∧
      sanitize_goal (sanitize_goal (s2l "- [| ]x")) ≠ sanitize_goal (s2l "- [| ]x") :=
  ⟨rfl, rfl, by decide⟩

/-- C4 amended: the goal sanitizer is idempotent on every input whose
sanitized form is at most 200 characters long and contains no checkbox
substring and no `#task-<digits>` substring.  (Outside these conditions
idempotence fails: a forged checkbox or identifier pattern is stripped by
the second pass, and a truncated output that began with whitespace can be
truncated again.) -/
theorem sanitize_goal_idempotent_of_stable (g : List Char)
    (hlen : (sanitize_goal g).length ≤ 200)
    (hcb : hasCheckbox (sanitize_goal g) = false)
    (htd : reSearchTaskNum (sanitize_goal g) = none) :
    sanitize_goal (sanitize_goal g) = sanitize_goal g := by
  by_cases htnil : sanitize_goal g = []
  · rw [htnil]; rfl
  · have e1 : (sanitize_goal g).map
        (fun c => if c = '\n' ∨ c = '\r' then ' ' else c) = sanitize_goal g := by
      refine map_eq_self_of_fixed ?_
      intro c hc
      rcases sanitize_goal_chars hc with ⟨_, hn, hr, _⟩
      rw [if_neg]
      rintro (h | h)
      · exact hn h
      · exact hr h
    have e2 : removeCheckbox (sanitize_goal g) = sanitize_goal g :=
      removeCheckbox_eq_self hcb
    have e3 : removeTaskId (sanitize_goal g) = sanitize_goal g :=
      removeTaskId_eq_self htd
    have e4 : (sanitize_goal g).filter (fun c => !isDangerous c) = sanitize_goal g := by
      refine List.filter_eq_self.mpr ?_
      intro c hc
      simp [(sanitize_goal_chars hc).1]
    have e5 : collapseWs (sanitize_goal g) = sanitize_goal g :=
      (collapse_id_aux (sanitize_goal g)
        (fun c hc hsp => sanitize_goal_space_eq c hc hsp)
        (sanitize_goal_noWsRun g)).1
    have e6 : ¬200 < (sanitize_goal g).length := by omega
    conv_lhs => rw [sanitize_goal]
    rw [if_neg htnil]
    simp only []
    rw [e1, e2, e3, e4, e5, if_neg e6]
    exact sanitize_goal_pyStrip g

/-- Witness for the amended C4 theorem at the concrete input
`hello   world`. -/
theorem sanitize_goal_idempotent_of_stable_witness :
    sanitize_goal (sanitize_goal (s2l "hello   world")) =
      sanitize_goal (s2l "hello   world") :=
  sanitize_goal_idempotent_of_stable (s2l "hello   world")
    (by decide) (by decide) (by decide)

/-! ## Tag validation: C7 and C10 -/

theorem pySplit_tok_ne_nil {tok : List Char} :
    ∀ (acc l : List Char), tok ∈ pySplitAux acc l → tok ≠ [] := by
  intro acc l
  induction acc, l using pySplitAux.induct with
  | case1 => intro h; simp [pySplitAux] at h
  | case2 acc hacc =>
      intro h
      rw [pySplitAux.eq_def] at h
      simp only [if_neg hacc] at h
      simp at h
      subst h
      simpa using hacc
  | case3 c rest hsp ih =>
      intro h
      rw [pySplitAux.eq_def] at h
      simp only [hsp, if_true, if_pos rfl] at h
      exact ih h
  | case4 acc c rest hsp hacc ih =>
      intro h
      rw [pySplitAux.eq_def] at h
      simp only [hsp, if_true, if_neg hacc] at h
      rcases List.mem_cons.mp h with he | hm
      · subst he; simpa using hacc
      · exact ih hm
  | case5 acc c rest hsp ih =>
      intro h
      rw [pySplitAux.eq_def] at h
      simp only [hsp, Bool.false_eq_true, if_false] at h
      exact ih h

theorem firstTagError_none_iff {toks : List (List Char)} :
    firstTagError toks = none ↔ ∀ tok ∈ toks, checkTag tok = none := by
  induction toks with
  | nil => simp [firstTagError]
  | cons t rest ih =>
      rw [firstTagError]
      cases hc : checkTag t with
      | some e => simp [hc]
      | none => simp [hc, ih]

theorem firstTagError_some {toks : List (List Char)} {e : TagError}
    (h : firstTagError toks = some e) : ∃ tok ∈ toks, checkTag tok = some e := by
  induction toks with
  | nil => simp [firstTagError] at h
  | cons t rest ih =>
      rw [firstTagError] at h
      cases hc : checkTag t with
      | some e2 =>
          rw [hc] at h
          injection h with h2
          subst h2
          exact ⟨t, List.mem_cons_self t rest, hc⟩
      | none =>
          rw [hc] at h
          rcases ih h with ⟨tok, htok, hchk⟩
          exact ⟨tok, List.mem_cons_of_mem _ htok, hchk⟩

theorem checkTag_none_iff {tok : List Char} (hne : tok ≠ []) :
    checkTag tok = none ↔ (tok.all isTagChar = true ∧ tok.length ≤ 32) := by
  unfold checkTag
  have h1 : tok.isEmpty = false := by simpa using hne
  constructor
  · intro h
    split at h
    · simp at h
    · split at h
      · simp at h
      · rename_i hcond hlen
        simp [h1] at hcond
        refine ⟨List.all_eq_true.mpr hcond, by omega⟩
  · rintro ⟨hall, hlen⟩
    rw [if_neg (by simp [h1, hall]), if_neg (by omega)]

theorem checkTag_some_shape {tok : List Char} {e : TagError}
    (h : checkTag tok = some e) : e = .invalidTag tok ∨ e = .tagTooLong tok := by
  unfold checkTag at h
  split at h
  · injection h with h2; exact Or.inl h2.symm
  · split at h
    · injection h with h2; exact Or.inr h2.symm
    · simp at h

theorem not_tagTokenOk_iff {tok : List Char} :
    ¬(tok.all isTagChar = true ∧ tok.length ≤ 32) ↔
      ((∃ c ∈ tok, isTagChar c = false) ∨ 32 < tok.length) := by
  rw [not_and_or]
  have h1 : ¬(tok.all isTagChar = true) ↔ ∃ c ∈ tok, isTagChar c = false := by
    rw [List.all_eq_true]
    push_neg
    simp [Bool.not_eq_true]
  have h2 : ¬(tok.length ≤ 32) ↔ 32 < tok.length := by omega
  rw [h1, h2]

/-- C7: tag validation raises-iff.  For every token string: the tag check
fails (with a `TagFormatError` naming an offending token) if and only if
some whitespace-separated token contains a character outside
`[A-Za-z0-9_-]` or exceeds 32 characters; in particular `bad!tag` fails,
a 33-character token fails, and a 32-character alphanumeric token is
accepted. -/
theorem validate_tags_raises_iff :
    (∀ s, (∃ e, validate_tags s = .error e) ↔
        ∃ tok ∈ pySplit s, (∃ c ∈ tok, isTagChar c = false) ∨ 32 < tok.length) ∧
    (∀ s e, validate_tags s = .error e →
        ∃ tok ∈ pySplit s, (e = .invalidTag tok ∨ e = .tagTooLong tok) ∧
          ((∃ c ∈ tok, isTagChar c = false) ∨ 32 < tok.length)) ∧
    (∃ e, validate_tags (s2l "bad!tag") = .error e) ∧
    (∃ e, validate_tags (List.replicate 33 'a') = .error e) ∧
    validate_tags (List.replicate 32 'a') = .ok (List.replicate 32 'a') := by
  refine ⟨?_, ?_, ⟨.invalidTag (s2l "bad!tag"), rfl⟩,
    ⟨.tagTooLong (List.replicate 33 'a'), rfl⟩, rfl⟩
  · intro s
    constructor
    · rintro ⟨e, he⟩
      unfold validate_tags at he
      split at he
      · simp at he
      · cases hf : firstTagError (pySplit s) with
        | none => rw [hf] at he; simp at he
        | some e2 =>
            rcases firstTagError_some hf with ⟨tok, htok, hchk⟩
            have hne := pySplit_tok_ne_nil [] s htok
            refine ⟨tok, htok, not_tagTokenOk_iff.mp ?_⟩
            intro hcontra
            rw [(checkTag_none_iff hne).mpr hcontra] at hchk
            simp at hchk
    · rintro ⟨tok, htok, hbad2⟩
      have hsne : s ≠ [] := by
        intro h
        subst h
        simp [pySplit, pySplitAux] at htok
      have hne := pySplit_tok_ne_nil [] s htok
      unfold validate_tags
      rw [if_neg hsne]
      cases hf : firstTagError (pySplit s) with
      | some e => exact ⟨e, rfl⟩
      | none =>
          exfalso
          have h3 := firstTagError_none_iff.mp hf tok htok
          rw [checkTag_none_iff hne] at h3
          exact not_tagTokenOk_iff.mpr hbad2 h3
  · intro s e he
    unfold validate_tags at he
    split at he
    · simp at he
    · cases hf : firstTagError (pySplit s) with
      | none => rw [hf] at he; simp at he
      | some e2 =>
          rw [hf] at he
          injection he with he2
          subst he2
          rcases firstTagError_some hf with ⟨tok, htok, hchk⟩
          have hne := pySplit_tok_ne_nil [] s htok
          refine ⟨tok, htok, checkTag_some_shape hchk, not_tagTokenOk_iff.mp ?_⟩
          intro hcontra
          rw [(checkTag_none_iff hne).mpr hcontra] at hchk
          simp at hchk

/-- Witness for the C7 theorem: its first conjunct applied at the input
`bad!tag` yields a concrete offending token. -/
theorem validate_tags_raises_iff_witness :
    ∃ tok ∈ pySplit (s2l "bad!tag"),
      (∃ c ∈ tok, isTagChar c = false) ∨ 32 < tok.length :=
  (validate_tags_raises_iff.1 (s2l "bad!tag")).mp
    ⟨.invalidTag (s2l "bad!tag"), rfl⟩

/-- C10: tag validation is the identity on accepted inputs.  Whenever
every whitespace-separated token of `s` matches `[A-Za-z0-9_-]+` and has
at most 32 characters, `validate_tags` returns `s` itself unchanged
(including its original inter-token whitespace); in particular the empty
(falsy) input yields the empty string. -/
theorem validate_tags_identity_on_accepted (s : List Char)
    (h : ∀ tok ∈ pySplit s, tok.all isTagChar = true ∧ tok.length ≤ 32) :
    validate_tags s = .ok s := by
  by_cases hs : s = []
  · subst hs; rfl
  · unfold validate_tags
    rw [if_neg hs]
    have hf : firstTagError (pySplit s) = none := by
      rw [firstTagError_none_iff]
      intro tok htok
      exact (checkTag_none_iff (pySplit_tok_ne_nil [] s htok)).mpr (h tok htok)
    rw [hf]

/-- Witness for the C10 theorem at the input `a  b-c` (with doubled
inter-token whitespace, returned verbatim). -/
theorem validate_tags_identity_on_accepted_witness :
    validate_tags (s2l "a  b-c") = .ok (s2l "a  b-c") :=
  validate_tags_identity_on_accepted (s2l "a  b-c") (by decide)

/-! ## C8: task source loader error contract -/

/-- C8: the loader fails with `SourceNotFoundError` exactly when the task
source file is absent; it fails with a `SourceFormatError` exactly when
the parsed top-level value is not a mapping, or its `tasks` field is
present and is not a sequence; otherwise it returns the raw task
sequence (the empty sequence when the `tasks` key is absent, since
`data.get('tasks', [])` defaults to a list). -/
theorem load_tasks_error_contract :
    (∀ file, load_tasks_from_yaml file = .error .sourceNotFound ↔ file = none) ∧
    (∀ v, (∃ e, load_tasks_from_yaml (some v) = .error e ∧ e ≠ .sourceNotFound) ↔
        ((∀ kvs, v ≠ .map kvs) ∨
          ∃ kvs t, v = .map kvs ∧ lookupKey kvs (s2l "tasks") = some t ∧
            ∀ xs, t ≠ .seq xs)) ∧
    (∀ kvs, lookupKey kvs (s2l "tasks") = none →
        load_tasks_from_yaml (some (.map kvs)) = .ok []) ∧
    (∀ kvs ts, lookupKey kvs (s2l "tasks") = some (.seq ts) →
        load_tasks_from_yaml (some (.map kvs)) = .ok ts) := by
  refine ⟨?_, ?_, ?_, ?_⟩
  · rintro (_ | v)
    · simp [load_tasks_from_yaml]
    · simp only [load_tasks_from_yaml]
      rcases v with _ | b | n | s | xs | kvs
      · simp
      · simp
      · simp
      · simp
      · simp
      · cases hl : lookupKey kvs (s2l "tasks") with
        | none => simp [hl]
        | some t => rcases t with _ | b | n | s | xs | kvs2 <;> simp [hl]
  · intro v
    constructor
    · rintro ⟨e, he, hne⟩
      rcases v with _ | b | n | s | xs | kvs
      · exact Or.inl (fun kvs h => by simp at h)
      · exact Or.inl (fun kvs h => by simp at h)
      · exact Or.inl (fun kvs h => by simp at h)
      · exact Or.inl (fun kvs h => by simp at h)
      · exact Or.inl (fun kvs h => by simp at h)
      · right
        simp only [load_tasks_from_yaml] at he
        cases hl : lookupKey kvs (s2l "tasks") with
        | none => rw [hl] at he; simp at he
        | some t =>
            rw [hl] at he
            rcases t with _ | b | n | s | xs | kvs2
            · exact ⟨kvs, .null, rfl, hl, fun xs h => by simp at h⟩
            · exact ⟨kvs, .bool b, rfl, hl, fun xs h => by simp at h⟩
            · exact ⟨kvs, .num n, rfl, hl, fun xs h => by simp at h⟩
            · exact ⟨kvs, .str s, rfl, hl, fun xs h => by simp at h⟩
            · simp at he
            · exact ⟨kvs, .map kvs2, rfl, hl, fun xs h => by simp at h⟩
    · rintro (hnm | ⟨kvs, t, hv, hl, hns⟩)
      · rcases v with _ | b | n | s | xs | kvs
        · exact ⟨.notDict, rfl, by simp⟩
        · exact ⟨.notDict, rfl, by simp⟩
        · exact ⟨.notDict, rfl, by simp⟩
        · exact ⟨.notDict, rfl, by simp⟩
        · exact ⟨.notDict, rfl, by simp⟩
        · exact absurd rfl (hnm kvs)
      · subst hv
        refine ⟨.tasksNotList, ?_, by simp⟩
        simp only [load_tasks_from_yaml]
        rw [hl]
        rcases t with _ | b | n | s | xs | kvs2
        · rfl
        · rfl
        · rfl
        · rfl
        · exact absurd rfl (hns xs)
        · rfl
  · intro kvs hl
    simp only [load_tasks_from_yaml]
    rw [hl]
  · intro kvs ts hl
    simp only [load_tasks_from_yaml]
    rw [hl]

/-- Witness for the C8 theorem: the loader on a present, well-formed
source `{tasks: []}` returns the raw empty sequence, and the
absent-file case maps to `SourceNotFoundError`. -/
theorem load_tasks_error_contract_witness :
    load_tasks_from_yaml (some (.map [(s2l "tasks", .seq [])])) = .ok [] ∧
      (load_tasks_from_yaml none = .error .sourceNotFound ↔ (none : Option Yaml) = none) :=
  ⟨load_tasks_error_contract.2.2.2 [(s2l "tasks", .seq [])] [] rfl,
    load_tasks_error_contract.1 none⟩

/-! ## C2: end-to-end single-task sync, and C9: priority not enforced -/

/-- C2: syncing the task source `{tasks: [{id: task-1, goal: "Fix bug",
status: pending, priority: high}]}` into an empty checklist appends
exactly the one line `- [ ] Fix bug | Priority: high | Created: <sync
date> #task-1` (newline-terminated) and reports one imported task and
zero skipped. -/
theorem sync_single_task_end_to_end (d : List Char) :
    sync_tasks [fixBugTask] (some []) d =
      (.imported 1 0,
        (s2l "- [ ] Fix bug | Priority: high | Created: " ++ (d ++ s2l " #task-1")) ++
          ['\n']) :=
  rfl

/-- C9 (implicit): the priority enum is not enforced on the sync path.
Rendering succeeds for every value of the priority field; the value is
emitted into the line shell-quoted (wrapped in single quotes when it
contains any unsafe character, such as a space or metacharacter);
`medium` is used when the field is absent; and `validate_priority` — which
accepts exactly the closed enum — plays no role: values it rejects are
rendered without error. -/
theorem priority_not_enforced :
    (∀ p d, renderTask (priorityProbeTask (some p)) d =
        some ((s2l "- [ ]" ++ ' ' :: s2l "Fix bug" ++ s2l " | Priority: " ++
          shlexQuote p ++ s2l " | Created: " ++ d) ++ ' ' :: s2l "#task-1")) ∧
    (∀ d, renderTask (priorityProbeTask none) d =
        some ((s2l "- [ ]" ++ ' ' :: s2l "Fix bug" ++ s2l " | Priority: " ++
          s2l "medium" ++ s2l " | Created: " ++ d) ++ ' ' :: s2l "#task-1")) ∧
    (∀ p, p ≠ [] → ¬(p.all shlexSafe = true) →
        shlexQuote p = sqChar ::
          (p.flatMap fun c =>
            if c = sqChar then [sqChar, dqChar, sqChar, dqChar, sqChar] else [c]) ++
            [sqChar]) ∧
    (∀ p, (∃ q, validate_priority p = .ok q) ↔
        (p = s2l "critical" ∨ p = s2l "high" ∨ p = s2l "medium" ∨ p = s2l "low")) ∧
    shlexQuote (s2l "ur gent") = sqChar :: s2l "ur gent" ++ [sqChar] := by
  refine ⟨fun p d => rfl, fun d => rfl, ?_, ?_, rfl⟩
  · intro p h1 h2
    unfold shlexQuote
    rw [if_neg h1, if_neg h2]
  · intro p
    constructor
    · rintro ⟨q, hq⟩
      unfold validate_priority at hq
      split at hq
      · assumption
      · simp at hq
    · intro h
      exact ⟨p, by unfold validate_priority; rw [if_pos h]⟩

/-- Witness for the C9 theorem: the quoting conjunct applied at the
out-of-enum value `ur gent`, and rendering at a concrete date. -/
theorem priority_not_enforced_witness :
    shlexQuote (s2l "ur gent") = sqChar ::
        ((s2l "ur gent").flatMap fun c =>
          if c = sqChar then [sqChar, dqChar, sqChar, dqChar, sqChar] else [c]) ++
        [sqChar] ∧
      renderTask (priorityProbeTask (some (s2l "ur gent"))) (s2l "2025-01-01") =
        some ((s2l "- [ ]" ++ ' ' :: s2l "Fix bug" ++ s2l " | Priority: " ++
          shlexQuote (s2l "ur gent") ++ s2l " | Created: " ++ s2l "2025-01-01") ++
            ' ' :: s2l "#task-1") :=
  ⟨priority_not_enforced.2.2.1 (s2l "ur gent") (by decide) (by decide),
    priority_not_enforced.1 (s2l "ur gent") (s2l "2025-01-01")⟩

/-! ## C5: watermark scanner contract -/

theorem scanBack_spec (ls : List (List Char)) :
    (scanBack ls = 0 ∧ ∀ l ∈ ls, reSearchTaskNum l = none) ∨
      (∃ pre l post, ls = pre ++ l :: post ∧
        (∀ l2 ∈ pre, reSearchTaskNum l2 = none) ∧
        reSearchTaskNum l = some (scanBack ls)) := by
  induction ls with
  | nil => exact Or.inl ⟨rfl, by simp⟩
  | cons a rest ih =>
      cases ha : reSearchTaskNum a with
      | some n =>
          right
          refine ⟨[], a, rest, by simp, by simp, ?_⟩
          rw [scanBack, ha]
      | none =>
          have hsc : scanBack (a :: rest) = scanBack rest := by rw [scanBack, ha]
          rcases ih with ⟨h0, hall⟩ | ⟨pre, l, post, hls, hpre, hl⟩
          · left
            refine ⟨by rw [hsc, h0], ?_⟩
            intro l hl
            rcases List.mem_cons.mp hl with he | hm
            · subst he; exact ha
            · exact hall l hm
          · right
            refine ⟨a :: pre, l, post, by rw [hls]; rfl, ?_, by rw [hsc]; exact hl⟩
            intro l2 hl2
            rcases List.mem_cons.mp hl2 with he | hm
            · subst he; exact ha
            · exact hpre l2 hm

/-- C5: the watermark scanner contract.  A missing checklist returns 0
and creates the empty file (its only side effect); an existing file is
never modified; the result depends only on the last 100 lines; the value
returned is the `#task-(\d+)` capture of the *first* line with a match
when the window is scanned in reverse order (not the numeric maximum over
the window), and 0 when no window line matches; on the concrete document
`a #task-12\nb #task-7\n` it returns 7, the first match scanning
backward, although 12 is the larger number. -/
theorem get_max_task_id_contract :
    get_max_task_id none = (0, []) ∧
      get_max_task_id (some []) = (0, []) ∧
      (∀ text, (get_max_task_id (some text)).2 = text) ∧
      (∀ t1 t2, takeLast 100 (pyReadlines t1) = takeLast 100 (pyReadlines t2) →
        (get_max_task_id (some t1)).1 = (get_max_task_id (some t2)).1) ∧
      (∀ text,
        ((get_max_task_id (some text)).1 = 0 ∧
          ∀ l ∈ takeLast 100 (pyReadlines text), reSearchTaskNum l = none) ∨
        (∃ pre l post,
          (takeLast 100 (pyReadlines text)).reverse = pre ++ l :: post ∧
          (∀ l2 ∈ pre, reSearchTaskNum l2 = none) ∧
          reSearchTaskNum l = some (get_max_task_id (some text)).1)) ∧
      (get_max_task_id (some (s2l "a #task-12\nb #task-7\n"))).1 = 7 := by
  refine ⟨rfl, rfl, fun _ => rfl, ?_, ?_, rfl⟩
  · intro t1 t2 h
    show scanBack ((takeLast 100 (pyReadlines t1)).reverse) =
      scanBack ((takeLast 100 (pyReadlines t2)).reverse)
    rw [h]
  · intro text
    rcases scanBack_spec ((takeLast 100 (pyReadlines text)).reverse) with ⟨h0, hall⟩ |
      ⟨pre, l, post, hls, hpre, hl⟩
    · left
      refine ⟨h0, ?_⟩
      intro l hl
      exact hall l (List.mem_reverse.mpr hl)
    · exact Or.inr ⟨pre, l, post, hls, hpre, hl⟩

/-- Witness for the C5 theorem: the window-dependence conjunct applied at
a concrete document. -/
theorem get_max_task_id_contract_witness :
    (get_max_task_id (some (s2l "b #task-7\n"))).1 =
      (get_max_task_id (some (s2l "b #task-7\n"))).1 :=
  get_max_task_id_contract.2.2.2.1 (s2l "b #task-7\n") (s2l "b #task-7\n") rfl

/-! ## C6: which lines the watermark scanner ignores -/

/-- C6 counterexample: the watermark scanner does *not* ignore lines
that fail the ChecklistLine grammar.  `junk #task-42` has no checkbox, so
it does not match the grammar, yet inserting it into an empty document
changes the returned watermark from 0 to 42: the scanner matches
`#task-(\d+)` in any line whatsoever. -/
theorem watermark_reads_nongrammar_lines_cex :
    startsWithCheckbox (s2l "junk #task-42") = false ∧
      (get_max_task_id (some (s2l "junk #task-42" ++ ['\n']))).1 = 42 ∧
      (get_max_task_id (some [])).1 = 0 ∧
      (get_max_task_id (some (s2l "junk #task-42" ++ ['\n']))).1 ≠
        (get_max_task_id (some [])).1 :=
  ⟨rfl, rfl, rfl, by decide⟩

theorem scanBack_middle_none {l : List Char} (xs ys : List (List Char))
    (h : reSearchTaskNum l = none) :
    scanBack (xs ++ l :: ys) = scanBack (xs ++ ys) := by
  induction xs with
  | nil => simp only [List.nil_append]; rw [scanBack, h]
  | cons a rest ih =>
      simp only [List.cons_append]
      rw [scanBack, scanBack]
      cases reSearchTaskNum a with
      | some n => rfl
      | none => simpa using ih

/-- C6 amended: the watermark scanner never modifies the document, and it
ignores exactly the lines containing no `#task-<digits>` substring:
replacing such a line (anywhere, hence in particular within the scanned
window) by another such line never changes the returned watermark.  The
claim as stated is false in two ways shown by the counterexample: a line
can fail the ChecklistLine grammar yet carry a `#task-<digits>` match
that the scanner reads, and inserting (rather than replacing) a line
shifts the 100-line window. -/
theorem watermark_ignores_unmatched_lines :
    (∀ text, (get_max_task_id (some text)).2 = text) ∧
      (∀ text, (get_max_task_id (some text)).1 =
        scanBack ((takeLast 100 (pyReadlines text)).reverse)) ∧
      (∀ (pre suf : List (List Char)) (l1 l2 : List Char),
        reSearchTaskNum l1 = none → reSearchTaskNum l2 = none →
        scanBack ((takeLast 100 (pre ++ l1 :: suf)).reverse) =
          scanBack ((takeLast 100 (pre ++ l2 :: suf)).reverse)) := by
  refine ⟨fun _ => rfl, fun _ => rfl, ?_⟩
  intro pre suf l1 l2 h1 h2
  have hlen : ∀ (l : List Char), (pre ++ l :: suf).length = pre.length + suf.length + 1 := by
    intro l
    simp
    omega
  by_cases hc : pre.length + suf.length + 1 - 100 ≤ pre.length
  · have hdrop : ∀ (l : List Char), takeLast 100 (pre ++ l :: suf) =
        pre.drop (pre.length + suf.length + 1 - 100) ++ l :: suf := by
      intro l
      unfold takeLast
      rw [hlen, List.drop_append_eq_append_drop,
        Nat.sub_eq_zero_of_le hc, List.drop_zero]
    have hrev : ∀ (l : List Char),
        ((pre.drop (pre.length + suf.length + 1 - 100) ++ l :: suf)).reverse =
          suf.reverse ++ l :: (pre.drop (pre.length + suf.length + 1 - 100)).reverse := by
      intro l
      rw [List.reverse_append, List.reverse_cons, List.append_assoc]
      simp
    rw [hdrop l1, hdrop l2, hrev l1, hrev l2,
      scanBack_middle_none _ _ h1, scanBack_middle_none _ _ h2]
  · have hdrop : ∀ (l : List Char), takeLast 100 (pre ++ l :: suf) =
        suf.drop (pre.length + suf.length + 1 - 100 - pre.length - 1) := by
      intro l
      unfold takeLast
      rw [hlen, List.drop_append_eq_append_drop,
        List.drop_eq_nil_of_le (by omega), List.nil_append]
      have hm2 : pre.length + suf.length + 1 - 100 - pre.length =
          (pre.length + suf.length + 1 - 100 - pre.length - 1) + 1 := by omega
      rw [hm2, List.drop_succ_cons]
      congr 1
    rw [hdrop l1, hdrop l2]

/-- Witness for the amended C6 theorem: replacing the match-free line
`junk` by the match-free line `note` below a task line leaves the
watermark unchanged. -/
theorem watermark_ignores_unmatched_lines_witness :
    scanBack ((takeLast 100 ([s2l "b #task-7"] ++ s2l "junk" :: [])).reverse) =
      scanBack ((takeLast 100 ([s2l "b #task-7"] ++ s2l "note" :: [])).reverse) :=
  watermark_ignores_unmatched_lines.2.2 [s2l "b #task-7"] [] (s2l "junk") (s2l "note")
    rfl rfl

/-! ## C1 machinery: shape of rendered lines -/

theorem mem_shlexQuote {c : Char} {p : List Char} (h : c ∈ shlexQuote p) :
    c ∈ p ∨ c = sqChar ∨ c = dqChar := by
  unfold shlexQuote at h
  split at h
  · rcases List.mem_cons.mp h with he | hm
    · exact Or.inr (Or.inl he)
    · simp at hm
      exact Or.inr (Or.inl hm)
  · split at h
    · exact Or.inl h
    · rcases List.mem_cons.mp h with he | hm
      · exact Or.inr (Or.inl he)
      · rcases List.mem_append.mp hm with hf | hs
        · rcases List.mem_flatMap.mp hf with ⟨a, ha, hfa⟩
          split at hfa
          · simp at hfa
            right
            tauto
          · simp at hfa
            subst hfa
            exact Or.inl ha
        · simp at hs
          simp [hs]

theorem mem_joinSpace {c : Char} {L : List (List Char)} (h : c ∈ joinSpace L) :
    c = ' ' ∨ ∃ tok ∈ L, c ∈ tok := by
  induction L with
  | nil => simp [joinSpace] at h
  | cons x rest ih =>
      cases rest with
      | nil =>
          simp only [joinSpace] at h
          exact Or.inr ⟨x, by simp, h⟩
      | cons y ys =>
          have hj : joinSpace (x :: y :: ys) = x ++ ' ' :: joinSpace (y :: ys) := rfl
          rw [hj] at h
          rcases List.mem_append.mp h with h1 | h1
          · exact Or.inr ⟨x, by simp, h1⟩
          · rcases List.mem_cons.mp h1 with he | hm
            · exact Or.inl he
            · rcases ih hm with h2 | ⟨tok, htok, hc⟩
              · exact Or.inl h2
              · exact Or.inr ⟨tok, List.mem_cons_of_mem _ htok, hc⟩

theorem joinSpace_cons (x : List Char) (rest : List (List Char)) :
    joinSpace (x :: rest) =
      x ++ (if rest = [] then [] else ' ' :: joinSpace rest) := by
  cases rest with
  | nil => simp [joinSpace]
  | cons y ys =>
      have hj : joinSpace (x :: y :: ys) = x ++ ' ' :: joinSpace (y :: ys) := rfl
      rw [hj, if_neg (by simp)]

theorem takeWhile_all {p : Char → Bool} {l : List Char} (h : l.all p = true) :
    l.takeWhile p = l := by
  induction l with
  | nil => rfl
  | cons c rest ih =>
      simp only [List.all_cons, Bool.and_eq_true] at h
      rw [List.takeWhile_cons, if_pos h.1, ih h.2]

theorem takeWhile_append_all {p : Char → Bool} {l m : List Char}
    (h : l.all p = true) : (l ++ m).takeWhile p = l ++ m.takeWhile p := by
  induction l with
  | nil => rfl
  | cons c rest ih =>
      simp only [List.all_cons, Bool.and_eq_true] at h
      rw [List.cons_append, List.takeWhile_cons, if_pos h.1, ih h.2, List.cons_append]

theorem pySplitAux_nonws (x : List Char) (hx : ∀ c ∈ x, isPySpace c = false) :
    ∀ (acc rest : List Char),
      pySplitAux acc (x ++ rest) = pySplitAux (x.reverse ++ acc) rest := by
  induction x with
  | nil => intro acc rest; simp
  | cons c xs ih =>
      intro acc rest
      rw [List.cons_append, pySplitAux.eq_def]
      simp only [hx c (by simp), Bool.false_eq_true, if_false]
      rw [ih (fun c2 hc2 => hx c2 (List.mem_cons_of_mem _ hc2)) (c :: acc) rest]
      congr 1
      simp

theorem pySplit_single {x : List Char} (hne : x ≠ [])
    (hx : ∀ c ∈ x, isPySpace c = false) : pySplit x = [x] := by
  have h1 := pySplitAux_nonws x hx [] []
  rw [List.append_nil] at h1
  rw [pySplit, h1, pySplitAux.eq_def]
  simp [hne]

theorem pySplit_sep {x y : List Char} (hne : x ≠ [])
    (hx : ∀ c ∈ x, isPySpace c = false) :
    pySplit (x ++ ' ' :: y) = x :: pySplit y := by
  have h1 := pySplitAux_nonws x hx [] (' ' :: y)
  rw [pySplit, h1, pySplitAux.eq_def]
  have hsp : isPySpace ' ' = true := by decide
  simp only [hsp, if_true, List.append_nil]
  rw [if_neg (by simpa using hne)]
  simp [pySplit]

theorem validate_tags_ok_tokens {s s2 : List Char} (h : validate_tags s = .ok s2) :
    ∀ tok ∈ pySplit s, tok.all isTagChar = true ∧ tok.length ≤ 32 := by
  intro tok htok
  unfold validate_tags at h
  split at h
  · rename_i hs
    subst hs
    simp [pySplit, pySplitAux] at htok
  · cases hf : firstTagError (pySplit s) with
    | some e => rw [hf] at h; simp at h
    | none =>
        exact (checkTag_none_iff (pySplit_tok_ne_nil [] s htok)).mp
          (firstTagError_none_iff.mp hf tok htok)

theorem isValidTaskId_shape {tid : List Char} (h : isValidTaskId tid = true) :
    ∃ ds, tid = 't' :: 'a' :: 's' :: 'k' :: '-' :: ds ∧ ds ≠ [] ∧
      ds.all Char.isDigit = true := by
  unfold isValidTaskId at h
  split at h
  · rename_i ds
    simp only [Bool.and_eq_true] at h
    exact ⟨ds, rfl, by simpa using h.1, h.2⟩
  · simp at h

theorem parseTaskNum_valid {ds : List Char} (hne : ds ≠ [])
    (hdig : ds.all Char.isDigit = true) :
    parseTaskNum ('t' :: 'a' :: 's' :: 'k' :: '-' :: ds) = some (digitsVal ds) := by
  cases ds with
  | nil => exact absurd rfl hne
  | cons c rest =>
      simp only [List.all_cons, Bool.and_eq_true] at hdig
      rw [parseTaskNum]
      rw [if_pos hdig.1, takeWhile_all hdig.2]

theorem matchTaskAt_ne_hash {c : Char} {l : List Char} (h : c ≠ '#') :
    matchTaskAt (c :: l) = none := by
  rw [matchTaskAt.eq_def]
  split
  · rename_i heq
    injection heq with h1 _
    exact absurd h1 h
  · rfl

theorem reSearch_hashfree_prefix {pre l : List Char}
    (h : ∀ c ∈ pre, c ≠ '#') : reSearchTaskNum (pre ++ l) = reSearchTaskNum l := by
  induction pre with
  | nil => rfl
  | cons c rest ih =>
      rw [List.cons_append, reSearchTaskNum,
        matchTaskAt_ne_hash (h c (List.mem_cons_self c rest))]
      exact ih fun c2 hc2 => h c2 (List.mem_cons_of_mem _ hc2)

theorem reSearch_at_match {ds post : List Char} (hne : ds ≠ [])
    (hdig : ds.all Char.isDigit = true)
    (hpost : ∀ c, post.head? = some c → c.isDigit = false) :
    reSearchTaskNum ('#' :: 't' :: 'a' :: 's' :: 'k' :: '-' :: (ds ++ post)) =
      some (digitsVal ds) := by
  cases ds with
  | nil => exact absurd rfl hne
  | cons c rest =>
      simp only [List.all_cons, Bool.and_eq_true] at hdig
      have hm : matchTaskAt ('#' :: 't' :: 'a' :: 's' :: 'k' :: '-' :: (c :: rest ++ post)) =
          some (digitsVal (c :: rest)) := by
        rw [List.cons_append, matchTaskAt]
        rw [if_pos hdig.1, takeWhile_append_all hdig.2]
        have hp : post.takeWhile Char.isDigit = [] := by
          cases post with
          | nil => rfl
          | cons p ps =>
              rw [List.takeWhile_cons, if_neg (by simp [hpost p rfl])]
        rw [hp, List.append_nil]
      rw [reSearchTaskNum, hm]

theorem isDigit_not_space {c : Char} (h : c.isDigit = true) : isPySpace c = false := by
  simp only [Char.isDigit, decide_eq_true_eq, Bool.and_eq_true] at h
  have h1 : 48 ≤ c.toNat := h.1
  have h2 : c.toNat ≤ 57 := h.2
  simp only [isPySpace, Bool.or_eq_false_iff, Bool.and_eq_false_iff,
    decide_eq_false_iff_not, not_le, beq_eq_false_iff_ne, ne_eq]
  omega

theorem isTagChar_not_nl {c : Char} (h : isTagChar c = true) : c ≠ '\n' := by
  intro he
  subst he
  simp [isTagChar] at h

theorem validate_tags_ok_eq {s s2 : List Char} (h : validate_tags s = .ok s2) :
    s2 = s := by
  unfold validate_tags at h
  split at h
  · rename_i hs
    injection h with h2
    rw [← h2, hs]
  · split at h
    · simp at h
    · injection h with h2
      exact h2.symm

theorem fieldClean_spec {s : List Char} (h : fieldClean s = true) :
    ∀ c ∈ s, c ≠ '#' ∧ c ≠ '\n' ∧ c ≠ '\r' := by
  intro c hc
  unfold fieldClean at h
  rw [List.all_eq_true] at h
  have := h c hc
  simp only [bne_iff_ne, ne_eq, Bool.and_eq_true, decide_eq_true_eq] at this
  tauto

theorem sanitize_goal_clean {g : List Char} (h : fieldClean g = true) :
    ∀ c ∈ sanitize_goal g, c ≠ '#' ∧ c ≠ '\n' := by
  intro c hc
  rcases sanitize_goal_chars hc with ⟨_, hn, _, hm⟩
  refine ⟨?_, hn⟩
  rcases hm with hg | hsp | hdot
  · exact (fieldClean_spec h c hg).1
  · subst hsp; decide
  · subst hdot; decide

theorem shlexQuote_clean {p : List Char} (h : fieldClean p = true) :
    ∀ c ∈ shlexQuote p, c ≠ '#' ∧ c ≠ '\n' := by
  intro c hc
  rcases mem_shlexQuote hc with hp | hq | hq
  · exact ⟨(fieldClean_spec h c hp).1, (fieldClean_spec h c hp).2.1⟩
  · subst hq; exact ⟨by decide, by decide⟩
  · subst hq; exact ⟨by decide, by decide⟩

theorem takeWhile_clean {s : List Char} {p : Char → Bool} (h : fieldClean s = true) :
    ∀ c ∈ s.takeWhile p, c ≠ '#' ∧ c ≠ '\n' := by
  intro c hc
  have hm := (List.takeWhile_sublist p).mem hc
  exact ⟨(fieldClean_spec h c hm).1, (fieldClean_spec h c hm).2.1⟩

/-! ## Sync idempotence (C1) -/

/-- Every character of the fixed part of a rendered line (checkbox, goal,
priority, dates) of a clean task is neither a hash mark nor a newline. -/
theorem lineBase_clean {t : TaskRec} {d : List Char}
    (hct : taskClean t = true) (hcd : fieldClean d = true) :
    ∀ c ∈ lineBase t d, c ≠ '#' ∧ c ≠ '\n' := by
  unfold taskClean at hct
  simp only [Bool.and_eq_true] at hct
  obtain ⟨⟨⟨hg, hp⟩, hdue⟩, hca⟩ := hct
  have hgoal := sanitize_goal_clean hg
  have hprio := shlexQuote_clean hp
  have hdcl : ∀ c ∈ d, c ≠ '#' ∧ c ≠ '\n' :=
    fun c hc => ⟨(fieldClean_spec hcd c hc).1, (fieldClean_spec hcd c hc).2.1⟩
  have hduetw : ∀ dd, t.due = some dd →
      ∀ c ∈ dd.takeWhile (fun c => c != 'T'), c ≠ '#' ∧ c ≠ '\n' := by
    intro dd hdd
    rw [hdd, Option.getD_some] at hdue
    exact takeWhile_clean hdue
  have hcatw : ∀ ca, t.completed_at = some ca →
      ∀ c ∈ ca.takeWhile (fun c => c != 'T'), c ≠ '#' ∧ c ≠ '\n' := by
    intro ca hac
    rw [hac, Option.getD_some] at hca
    exact takeWhile_clean hca
  intro c hc
  unfold lineBase at hc
  simp only [] at hc
  repeat' split at hc
  all_goals simp only [List.mem_append, List.mem_cons] at hc
  all_goals casesm* _ ∨ _
  all_goals first
    | exact hgoal c ‹_›
    | exact hprio c ‹_›
    | exact hdcl c ‹_›
    | exact hduetw _ ‹_› c ‹_›
    | exact hcatw _ ‹_› c ‹_›
    | (rename_i h9; subst h9; exact ⟨by decide, by decide⟩)
    | (rename_i h9; refine ⟨fun he => ?_, fun he => ?_⟩ <;> (subst he; revert h9; decide))

/-- No character of a validated `task-<digits>` identifier is a newline. -/
theorem tid_char_not_nl {c : Char} {ds : List Char}
    (hdig : ds.all Char.isDigit = true)
    (hc : c ∈ 't' :: 'a' :: 's' :: 'k' :: '-' :: ds) : c ≠ '\n' := by
  simp only [List.mem_cons] at hc
  rcases hc with rfl | rfl | rfl | rfl | rfl | hds
  · decide
  · decide
  · decide
  · decide
  · decide
  · have := List.all_eq_true.mp hdig c hds
    intro he
    subst he
    simp [Char.isDigit] at this

/-- Shape of a successfully rendered line of a clean task: a hash-free
clean front, then the `#task-<digits>` hashtag of the validated id,
followed by nothing or a space-led tag tail; the whole line is
newline-free. -/
theorem renderTask_shape {t : TaskRec} {d line : List Char}
    (hr : renderTask t d = some line)
    (hct : taskClean t = true) (hcd : fieldClean d = true) :
    ∃ pre ds post,
      line = pre ++ '#' :: 't' :: 'a' :: 's' :: 'k' :: '-' :: (ds ++ post) ∧
      (∀ c ∈ pre, c ≠ '#') ∧
      ds ≠ [] ∧ ds.all Char.isDigit = true ∧
      (post = [] ∨ post.head? = some ' ') ∧
      t.id = some ('t' :: 'a' :: 's' :: 'k' :: '-' :: ds) ∧
      (∀ c ∈ line, c ≠ '\n') := by
  unfold renderTask at hr
  cases hid : t.id with
  | none => rw [hid] at hr; simp at hr
  | some tid =>
      rw [hid] at hr
      simp only [] at hr
      by_cases hv : isValidTaskId tid
      case neg => rw [if_pos (by simp [hv])] at hr; simp at hr
      case pos =>
      rw [if_neg (by simp [hv])] at hr
      obtain ⟨ds, htid, hdne, hdig⟩ := isValidTaskId_shape hv
      have htidchars : ∀ c ∈ tid, isPySpace c = false := by
        subst htid
        intro c hc
        simp only [List.mem_cons] at hc
        rcases hc with rfl | rfl | rfl | rfl | rfl | hds
        · decide
        · decide
        · decide
        · decide
        · decide
        · exact isDigit_not_space (List.all_eq_true.mp hdig c hds)
      have htid_ne : tid ≠ [] := by subst htid; simp
      cases hst : sanitize_tags (joinSpace (tid :: taskTypeTags t)) with
      | error e => rw [hst] at hr; simp at hr
      | ok tagsStr =>
          rw [hst] at hr
          have htags_eq : tagsStr = joinSpace (tid :: taskTypeTags t) :=
            validate_tags_ok_eq hst
          subst htags_eq
          have hpre_hash : ∀ c ∈ lineBase t d ++ [' '], c ≠ '#' := by
            intro c hc
            rcases List.mem_append.mp hc with h1 | h1
            · exact (lineBase_clean hct hcd c h1).1
            · simp at h1; subst h1; decide
          have hpre_nl : ∀ c ∈ lineBase t d ++ [' '], c ≠ '\n' := by
            intro c hc
            rcases List.mem_append.mp hc with h1 | h1
            · exact (lineBase_clean hct hcd c h1).2
            · simp at h1; subst h1; decide
          have httt : taskTypeTags t = [] ∨ ∃ ty, ty ≠ [] ∧ taskTypeTags t = [ty] := by
            unfold taskTypeTags
            cases t.type with
            | none => exact Or.inl rfl
            | some ty =>
                by_cases h : ty = []
                · exact Or.inl (by simp [h])
                · exact Or.inr ⟨ty, h, by simp [h]⟩
          rcases httt with httt | ⟨ty, htyne, httt⟩
          · -- no type tag: tags string is the id itself
            rw [httt] at hr
            have hjs : joinSpace (tid :: ([] : List (List Char))) = tid := rfl
            rw [hjs] at hr
            simp only [] at hr
            rw [if_neg htid_ne, pySplit_single htid_ne htidchars] at hr
            have hj1 : joinSpace (List.map (fun tg => '#' :: tg) [tid]) = '#' :: tid := rfl
            rw [hj1] at hr
            injection hr with hline
            refine ⟨lineBase t d ++ [' '], ds, [], ?_, hpre_hash, hdne, hdig,
              Or.inl rfl, by rw [htid], ?_⟩
            · rw [← hline]
              subst htid
              simp
            · intro c hc
              rw [← hline] at hc
              rcases List.mem_append.mp hc with h1 | h1
              · exact (lineBase_clean hct hcd c h1).2
              · rcases List.mem_cons.mp h1 with rfl | h2
                · decide
                · rcases List.mem_cons.mp h2 with rfl | h3
                  · decide
                  · subst htid
                    exact tid_char_not_nl hdig h3
          · -- one type tag
            rw [httt] at hr
            have hjs : joinSpace (tid :: [ty]) = tid ++ ' ' :: ty := rfl
            rw [hjs] at hr
            simp only [] at hr
            have hne2 : tid ++ ' ' :: ty ≠ [] := by simp
            rw [if_neg hne2, pySplit_sep htid_ne htidchars] at hr
            have htoks := validate_tags_ok_tokens
              (show validate_tags (tid ++ ' ' :: ty) = .ok (tid ++ ' ' :: ty) from by
                have h5 := hst
                rw [httt, hjs] at h5
                have h6 := validate_tags_ok_eq h5
                rw [← h6]
                exact h5)
            rw [pySplit_sep htid_ne htidchars] at htoks
            have hmap : List.map (fun tg => '#' :: tg) (tid :: pySplit ty) =
                ('#' :: tid) :: List.map (fun tg => '#' :: tg) (pySplit ty) := rfl
            rw [hmap, joinSpace_cons] at hr
            injection hr with hline
            set post0 := (if List.map (fun tg => '#' :: tg) (pySplit ty) = [] then []
              else ' ' :: joinSpace (List.map (fun tg => '#' :: tg) (pySplit ty)))
              with hpost0
            have hposthead : post0 = [] ∨ post0.head? = some ' ' := by
              rw [hpost0]
              split
              · exact Or.inl rfl
              · exact Or.inr rfl
            have hpostnl : ∀ c ∈ post0, c ≠ '\n' := by
              intro c hc
              rw [hpost0] at hc
              split at hc
              · simp at hc
              · rcases List.mem_cons.mp hc with rfl | hm
                · decide
                · rcases mem_joinSpace hm with rfl | ⟨tok, htok, hctok⟩
                  · decide
                  · rcases List.mem_map.mp htok with ⟨tok2, htok2, hmapeq⟩
                    subst hmapeq
                    rcases List.mem_cons.mp hctok with rfl | hin
                    · decide
                    · exact isTagChar_not_nl (List.all_eq_true.mp
                        (htoks tok2 (List.mem_cons_of_mem _ htok2)).1 c hin)
            refine ⟨lineBase t d ++ [' '], ds, post0, ?_, hpre_hash, hdne, hdig,
              hposthead, by rw [htid], ?_⟩
            · rw [← hline]
              subst htid
              simp
            · intro c hc
              rw [← hline] at hc
              rcases List.mem_append.mp hc with h1 | h1
              · exact (lineBase_clean hct hcd c h1).2
              · rcases List.mem_cons.mp h1 with rfl | h2
                · decide
                · rcases List.mem_append.mp h2 with h3 | h3
                  · rcases List.mem_cons.mp h3 with rfl | h4
                    · decide
                    · subst htid
                      exact tid_char_not_nl hdig h4
                  · exact hpostnl c h3

/-- `sync_tasks` written with the selection and joining steps named. -/
theorem sync_tasks_eq (tasks : List TaskRec) (todo : Option (List Char)) (d : List Char) :
    sync_tasks tasks todo d =
      if (selectNew (get_max_task_id todo).1 (filter_pending_tasks tasks)).isEmpty
      then (.noNew, (get_max_task_id todo).2)
      else (.imported
              (rendered_lines (selectNew (get_max_task_id todo).1
                (filter_pending_tasks tasks)) d).length
              ((filter_pending_tasks tasks).length -
                (rendered_lines (selectNew (get_max_task_id todo).1
                  (filter_pending_tasks tasks)) d).length),
            (get_max_task_id todo).2 ++
              joinNL (rendered_lines (selectNew (get_max_task_id todo).1
                (filter_pending_tasks tasks)) d)) := rfl

/-- The append fold of `append_new_tasks` with an arbitrary initial
segment. -/
theorem joinNL_init (ls : List (List Char)) (init : List Char) :
    ls.foldr (fun l acc => l ++ '\n' :: acc) init = joinNL ls ++ init := by
  induction ls with
  | nil => simp [joinNL]
  | cons l rest ih =>
      simp only [List.foldr_cons, ih, joinNL, List.append_assoc, List.cons_append]

/-- Joining one more line appends it, newline-terminated, at the end. -/
theorem joinNL_concat (ls : List (List Char)) (x : List Char) :
    joinNL (ls ++ [x]) = joinNL ls ++ (x ++ ['\n']) := by
  rw [joinNL, List.foldr_append, ← joinNL, joinNL_init]
  rfl

/-- A newline-join is empty or ends with a newline. -/
theorem joinNL_last (ls : List (List Char)) :
    joinNL ls = [] ∨ (joinNL ls).getLast? = some '\n' := by
  induction ls with
  | nil => exact Or.inl rfl
  | cons l rest ih =>
      refine Or.inr ?_
      have hj : joinNL (l :: rest) = l ++ '\n' :: joinNL rest := rfl
      rw [hj]
      rcases ih with h0 | h0
      · rw [h0, List.getLast?_append_cons]
        simp
      · have hne : joinNL rest ≠ [] := by
          intro he; rw [he] at h0; simp at h0
        rw [List.getLast?_append_cons]
        cases hj2 : joinNL rest with
        | nil => exact absurd hj2 hne
        | cons e s2 =>
            rw [List.getLast?_cons_cons, ← hj2]
            exact h0

/-- Appending an empty or newline-ended block preserves newline
termination. -/
theorem newlineTerminated_append {a b : List Char}
    (ha : NewlineTerminated a) (hb : b = [] ∨ b.getLast? = some '\n') :
    NewlineTerminated (a ++ b) := by
  rcases hb with rfl | hb
  · simpa using ha
  · have hne : b ≠ [] := by intro he; rw [he] at hb; simp at hb
    exact Or.inr (by rw [List.getLast?_append_of_ne_nil _ hne]; exact hb)

/-- `readlines` on a single newline-terminated line yields that line. -/
theorem pyReadlinesAux_line {x : List Char} (hx : ∀ c ∈ x, c ≠ '\n') :
    ∀ acc, pyReadlinesAux acc (x ++ ['\n']) = [(acc.reverse ++ x) ++ ['\n']] := by
  induction x with
  | nil =>
      intro acc
      simp [pyReadlinesAux]
  | cons c rest ih =>
      intro acc
      have hc : c ≠ '\n' := hx c (List.mem_cons_self c rest)
      rw [List.cons_append, pyReadlinesAux, if_neg hc,
        ih (fun a ha => hx a (List.mem_cons_of_mem c ha)) (c :: acc)]
      simp

/-- `readlines` splits at a newline-terminated boundary. -/
theorem pyReadlinesAux_concat :
    ∀ (s : List Char), s.getLast? = some '\n' →
    ∀ (acc rest : List Char),
      pyReadlinesAux acc (s ++ rest) = pyReadlinesAux acc s ++ pyReadlinesAux [] rest := by
  intro s
  induction s with
  | nil => intro h; simp at h
  | cons c s ih =>
      intro h acc rest
      by_cases hc : c = '\n'
      · subst hc
        cases hs : s with
        | nil =>
            rw [List.cons_append, List.nil_append, pyReadlinesAux, if_pos rfl]
            rw [pyReadlinesAux, if_pos rfl]
            rw [pyReadlinesAux]
            simp
        | cons e s2 =>
            have hlast : s.getLast? = some '\n' := by
              rw [hs] at h ⊢
              rw [List.getLast?_cons_cons] at h
              exact h
            rw [List.cons_append, pyReadlinesAux, if_pos rfl, ← hs,
              ih hlast [] rest, pyReadlinesAux, if_pos rfl]
            simp
      · have hsne : s ≠ [] := by
          intro he
          rw [he] at h
          simp only [List.getLast?_singleton, Option.some_inj] at h
          exact hc h
        have hlast : s.getLast? = some '\n' := by
          cases hs : s with
          | nil => exact absurd hs hsne
          | cons e s2 =>
              rw [hs] at h
              rw [List.getLast?_cons_cons] at h
              exact h
        rw [List.cons_append, pyReadlinesAux, if_neg hc, ih hlast (c :: acc) rest,
          pyReadlinesAux, if_neg hc]

/-- The reversed tail window starts with the last line of the document. -/
theorem takeLast_reverse_head {α : Type} {l : List α} (hl : l ≠ []) {n : Nat}
    (hn : 1 ≤ n) : (takeLast n l).reverse.head? = l.getLast? := by
  rw [List.head?_reverse, takeLast]
  have hlen : 1 ≤ l.length := List.length_pos.mpr hl
  have hdne : l.drop (l.length - n) ≠ [] := by
    intro he
    have := List.length_drop (l.length - n) l
    rw [he] at this
    simp at this
    omega
  conv_rhs => rw [← List.take_append_drop (l.length - n) l]
  rw [List.getLast?_append_of_ne_nil _ hdne]

/-- The reverse scan stops at the first line with a match. -/
theorem scanBack_cons_found {a : List Char} {r : List (List Char)} {n : Nat}
    (h : reSearchTaskNum a = some n) : scanBack (a :: r) = n := by
  rw [scanBack, h]

/-- A `filterMap` ending in `y` splits the input at the last element that
maps to `some`: everything after it maps to `none`. -/
theorem filterMap_concat_split {α β : Type} {f : α → Option β} :
    ∀ {l : List α} {ys : List β} {y : β}, l.filterMap f = ys ++ [y] →
    ∃ l1 t l2, l = l1 ++ t :: l2 ∧ f t = some y ∧ l2.filterMap f = [] := by
  intro l
  induction l with
  | nil => intro ys y h; simp at h
  | cons a l ih =>
      intro ys y h
      rw [List.filterMap_cons] at h
      cases hfa : f a with
      | none =>
          rw [hfa] at h
          obtain ⟨l1, t, l2, hdec, hft, hnil⟩ := ih h
          exact ⟨a :: l1, t, l2, by rw [hdec, List.cons_append], hft, hnil⟩
      | some b =>
          rw [hfa] at h
          cases ys with
          | nil =>
              simp only [List.nil_append, List.cons_eq_cons] at h
              obtain ⟨hb, hnil⟩ := h
              exact ⟨[], a, l, by simp, by rw [hfa, hb], hnil⟩
          | cons y0 ys0 =>
              simp only [List.cons_append, List.cons_eq_cons] at h
              obtain ⟨hb, hrest⟩ := h
              obtain ⟨l1, t, l2, hdec, hft, hnil⟩ := ih hrest
              exact ⟨a :: l1, t, l2, by rw [hdec, List.cons_append], hft, hnil⟩

/-- Reading the watermark again from the text `get_max_task_id` leaves
behind returns the same watermark. -/
theorem get_max_task_id_stable (todo : Option (List Char)) :
    get_max_task_id (some (get_max_task_id todo).2) = get_max_task_id todo := by
  cases todo with
  | none => rfl
  | some t0 => rfl

/-- The last line of a newline-terminated document extended by one
newline-free line is exactly that line. -/
theorem pyReadlines_last_line {X x : List Char} (hX : NewlineTerminated X)
    (hx : ∀ c ∈ x, c ≠ '\n') :
    (pyReadlines (X ++ (x ++ ['\n']))).getLast? = some (x ++ ['\n']) := by
  rcases hX with rfl | hX
  · rw [List.nil_append, pyReadlines, pyReadlinesAux_line hx []]
    simp
  · have hXne : X ≠ [] := by intro he; rw [he] at hX; simp at hX
    rw [pyReadlines, pyReadlinesAux_concat X hX [] (x ++ ['\n']),
      pyReadlinesAux_line hx []]
    rw [List.getLast?_append_of_ne_nil _ (by simp)]
    simp

/-- The task-number scan of a rendered line (with its trailing newline)
finds exactly the digits of the rendered hashtag. -/
theorem reSearch_rendered {pre ds post : List Char}
    (hpreh : ∀ c ∈ pre, c ≠ '#') (hdne : ds ≠ [])
    (hdig : ds.all Char.isDigit = true)
    (hposthead : post = [] ∨ post.head? = some ' ') :
    reSearchTaskNum
      ((pre ++ '#' :: 't' :: 'a' :: 's' :: 'k' :: '-' :: (ds ++ post)) ++ ['\n']) =
      some (digitsVal ds) := by
  have he : (pre ++ '#' :: 't' :: 'a' :: 's' :: 'k' :: '-' :: (ds ++ post)) ++ ['\n'] =
      pre ++ '#' :: 't' :: 'a' :: 's' :: 'k' :: '-' :: (ds ++ (post ++ ['\n'])) := by
    simp [List.append_assoc]
  rw [he, reSearch_hashfree_prefix hpreh]
  apply reSearch_at_match hdne hdig
  intro c hc
  rcases hposthead with rfl | hp
  · simp only [List.nil_append, List.head?_cons, Option.some_inj] at hc
    subst hc
    decide
  · cases post with
    | nil => simp at hp
    | cons p ps =>
        simp only [List.head?_cons, Option.some_inj] at hp
        subst hp
        rw [List.cons_append, List.head?_cons] at hc
        injection hc with hc
        subst hc
        decide

/-- C1: the sync engine is idempotent when the pending tasks carry
monotonically nondecreasing numeric ids and clean free-text fields and the
initial checklist text is empty or newline-terminated: a second run on the
unchanged task source appends nothing — the checklist text is unchanged
and the outcome reports no new tasks or an import of zero. -/
theorem sync_idempotent_of_monotone_clean
    (tasks : List TaskRec) (todo : Option (List Char)) (d : List Char)
    (hmono : MonotoneIds (filter_pending_tasks tasks))
    (hclean : ∀ t ∈ tasks, taskClean t = true)
    (hd : fieldClean d = true)
    (hnl : NewlineTerminated (get_max_task_id todo).2) :
    (sync_tasks tasks (some (sync_tasks tasks todo d).2) d).2 =
      (sync_tasks tasks todo d).2 ∧
    ((sync_tasks tasks (some (sync_tasks tasks todo d).2) d).1 = SyncOutcome.noNew ∨
      ∃ k, (sync_tasks tasks (some (sync_tasks tasks todo d).2) d).1 =
        SyncOutcome.imported 0 k) := by
  have h1 := sync_tasks_eq tasks todo d
  rcases (rendered_lines (selectNew (get_max_task_id todo).1
      (filter_pending_tasks tasks)) d).eq_nil_or_concat with hR | ⟨ls, x, hR⟩
  · -- the first run appends no lines: its text is the original text
    have htext1 : (sync_tasks tasks todo d).2 = (get_max_task_id todo).2 := by
      rw [h1]
      split
      · rfl
      · show (get_max_task_id todo).2 ++ joinNL _ = _
        rw [hR]
        simp [joinNL]
    have hwm2 : get_max_task_id (some (sync_tasks tasks todo d).2) =
        get_max_task_id todo := by
      rw [htext1]
      exact get_max_task_id_stable todo
    have h2 := sync_tasks_eq tasks (some (sync_tasks tasks todo d).2) d
    rw [hwm2] at h2
    constructor
    · rw [h2]
      split
      · rw [htext1]
      · show (get_max_task_id todo).2 ++ joinNL _ = _
        rw [hR, htext1]
        simp [joinNL]
    · rw [h2]
      split
      · exact Or.inl rfl
      · refine Or.inr ⟨(filter_pending_tasks tasks).length, ?_⟩
        rw [hR]
        rfl
  · -- the first run appends at least one line; the last appended line sets
    -- the second watermark at the last rendered task id
    rw [List.concat_eq_append] at hR
    obtain ⟨l1, tstar, l2, hdec, hft, hl2nil⟩ := filterMap_concat_split hR
    have htmem1 : tstar ∈ selectNew (get_max_task_id todo).1
        (filter_pending_tasks tasks) := by
      rw [hdec]
      exact List.mem_append_right _ (List.mem_cons_self _ _)
    have htpend : tstar ∈ filter_pending_tasks tasks := List.mem_of_mem_filter htmem1
    have httasks : tstar ∈ tasks := List.mem_of_mem_filter htpend
    obtain ⟨pre, ds, post, hx, hpreh, hdne, hdig, hposthead, hidt, hxnl⟩ :=
      renderTask_shape hft (hclean tstar httasks) hd
    have hNparse : parseTaskNum (tstar.id.getD []) = some (digitsVal ds) := by
      rw [hidt, Option.getD_some]
      exact parseTaskNum_valid hdne hdig
    have hsel1 : (get_max_task_id todo).1 < digitsVal ds := by
      have hmf := (List.mem_filter.mp htmem1).2
      simp only [hNparse, decide_eq_true_eq] at hmf
      exact hmf
    have hne1 : ¬((selectNew (get_max_task_id todo).1
        (filter_pending_tasks tasks)).isEmpty = true) := by
      rw [hdec]
      cases l1 <;> simp
    have htext1 : (sync_tasks tasks todo d).2 =
        ((get_max_task_id todo).2 ++ joinNL ls) ++ (x ++ ['\n']) := by
      rw [h1, if_neg hne1]
      show (get_max_task_id todo).2 ++ joinNL _ = _
      rw [hR, joinNL_concat, List.append_assoc]
    have hNT : NewlineTerminated ((get_max_task_id todo).2 ++ joinNL ls) :=
      newlineTerminated_append hnl (joinNL_last ls)
    have hlastline : (pyReadlines (sync_tasks tasks todo d).2).getLast? =
        some (x ++ ['\n']) := by
      rw [htext1]
      exact pyReadlines_last_line hNT hxnl
    have hLne : pyReadlines (sync_tasks tasks todo d).2 ≠ [] := by
      intro he
      rw [he] at hlastline
      simp at hlastline
    have hwm2 : get_max_task_id (some (sync_tasks tasks todo d).2) =
        (digitsVal ds, (sync_tasks tasks todo d).2) := by
      show (scanBack ((takeLast 100 (pyReadlines (sync_tasks tasks todo d).2)).reverse),
        (sync_tasks tasks todo d).2) = _
      have hsc : scanBack ((takeLast 100
          (pyReadlines (sync_tasks tasks todo d).2)).reverse) = digitsVal ds := by
        have hhead := takeLast_reverse_head hLne (by norm_num : (1:Nat) ≤ 100)
        rw [hlastline] at hhead
        cases hw : (takeLast 100 (pyReadlines (sync_tasks tasks todo d).2)).reverse with
        | nil => rw [hw] at hhead; simp at hhead
        | cons a w2 =>
            rw [hw] at hhead
            simp only [List.head?_cons, Option.some_inj] at hhead
            subst hhead
            exact scanBack_cons_found
              (by rw [hx]; exact reSearch_rendered hpreh hdne hdig hposthead)
      rw [hsc]
    have h2 := sync_tasks_eq tasks (some (sync_tasks tasks todo d).2) d
    rw [hwm2] at h2
    simp only [] at h2
    have hpw : (selectNew (get_max_task_id todo).1
        (filter_pending_tasks tasks)).Pairwise
        (fun a b => ∀ m n, parseTaskNum (a.id.getD []) = some m →
          parseTaskNum (b.id.getD []) = some n → m ≤ n) :=
      List.Pairwise.sublist (List.filter_sublist _) hmono
    rw [hdec] at hpw
    obtain ⟨-, -, hcross⟩ := List.pairwise_append.mp hpw
    have hfail : ∀ u ∈ selectNew (digitsVal ds) (filter_pending_tasks tasks),
        renderTask u d = none := by
      intro u hu
      have hupend : u ∈ filter_pending_tasks tasks := List.mem_of_mem_filter hu
      have hpredu := (List.mem_filter.mp hu).2
      cases hpu : parseTaskNum (u.id.getD []) with
      | none =>
          simp only [hpu] at hpredu
          exact absurd hpredu (by decide)
      | some m =>
          simp only [hpu, decide_eq_true_eq] at hpredu
          have hu1 : u ∈ selectNew (get_max_task_id todo).1
              (filter_pending_tasks tasks) := by
            apply List.mem_filter.mpr
            refine ⟨hupend, ?_⟩
            simp only [hpu, decide_eq_true_eq]
            omega
          rw [hdec] at hu1
          rcases List.mem_append.mp hu1 with hul1 | hutl2
          · have hle := hcross u hul1 tstar (List.mem_cons_self _ _) m (digitsVal ds)
              hpu hNparse
            exact absurd hle (by omega)
          · rcases List.mem_cons.mp hutl2 with rfl | hul2
            · rw [hNparse] at hpu
              injection hpu with hmn
              exact absurd hpredu (by omega)
            · exact List.filterMap_eq_nil_iff.mp hl2nil u hul2
    have hR2 : rendered_lines (selectNew (digitsVal ds)
        (filter_pending_tasks tasks)) d = [] :=
      List.filterMap_eq_nil_iff.mpr hfail
    constructor
    · rw [h2]
      split
      · rfl
      · show (sync_tasks tasks todo d).2 ++ joinNL _ = _
        rw [hR2]
        simp [joinNL]
    · rw [h2]
      split
      · exact Or.inl rfl
      · refine Or.inr ⟨(filter_pending_tasks tasks).length, ?_⟩
        rw [hR2]
        rfl

/-- C1 counterexample: with pending ids out of order (`task-2` before
`task-1`), the first sync into an empty checklist imports both tasks, but
a second run with nothing changed imports `task-2` again and grows the
checklist text: the second run does not append zero lines. -/
theorem sync_not_idempotent_cex :
    (sync_tasks outOfOrderTasks none (s2l "2025-01-01")).1 = SyncOutcome.imported 2 0 ∧
    (sync_tasks outOfOrderTasks
        (some (sync_tasks outOfOrderTasks none (s2l "2025-01-01")).2)
        (s2l "2025-01-01")).1 = SyncOutcome.imported 1 1 ∧
    (sync_tasks outOfOrderTasks
        (some (sync_tasks outOfOrderTasks none (s2l "2025-01-01")).2)
        (s2l "2025-01-01")).2 ≠
      (sync_tasks outOfOrderTasks none (s2l "2025-01-01")).2 := by
  refine ⟨rfl, rfl, ?_⟩
  decide

/-- Witness for C1: a concrete one-task source with monotone ids and
clean fields on which the second sync run leaves the checklist text
unchanged. -/
theorem sync_idempotent_of_monotone_clean_witness :
    MonotoneIds (filter_pending_tasks [plainTask "task-1" "a"]) ∧
    (sync_tasks [plainTask "task-1" "a"]
        (some (sync_tasks [plainTask "task-1" "a"] none (s2l "2025-01-01")).2)
        (s2l "2025-01-01")).2 =
      (sync_tasks [plainTask "task-1" "a"] none (s2l "2025-01-01")).2 := by
  have hm : MonotoneIds (filter_pending_tasks [plainTask "task-1" "a"]) := by
    unfold MonotoneIds
    rw [show filter_pending_tasks [plainTask "task-1" "a"] = [plainTask "task-1" "a"]
      from rfl]
    exact List.Pairwise.cons (fun b hb => absurd hb (List.not_mem_nil b))
      List.Pairwise.nil
  exact ⟨hm, (sync_idempotent_of_monotone_clean [plainTask "task-1" "a"] none
    (s2l "2025-01-01") hm (by decide) (by decide) (Or.inl rfl)).1⟩
